import Mathlib

/-!
Verification of the MAIL-PORTAL SMTP credential/dispatch core.

Shallow embedding of:
* src/api/lib/smtp.ts        (credential vault, config resolver, dispatch engine)
* src/unnamed/part_000       (SMTP configuration routes: list/get/create/update/
                              set-default/test/delete)

Conventions: machine strings that the source manipulates character-by-character
(encrypted envelopes) are `List Char`; byte buffers are `List Nat` with values
below 256; the AES-256 block primitive and the scrypt/EVP key derivations of
node:crypto are external collaborators, abstracted as a `CryptoPrims` record,
while CBC chaining, PKCS#7 padding, hex transcoding and the envelope format are
modelled concretely.
-/

namespace MailPortal

/-! ## Hex transcoding (Buffer.toString('hex') / Buffer.from(str, 'hex')) -/
/-- Lower-case hex digit for a value below 16, as node's Buffer.toString('hex')
produces. -/
def hexDigitChar (n : Nat) : Char :=
  if n < 10 then Char.ofNat (48 + n) else Char.ofNat (87 + n)

/-- Two hex digits of one byte. -/
def hexEncodeByte (b : Nat) : List Char :=
  [hexDigitChar (b / 16 % 16), hexDigitChar (b % 16)]

/-- Hex encoding of a byte buffer, `buf.toString('hex')`. -/
def hexEncode (bs : List Nat) : List Char :=
  (bs.map hexEncodeByte).flatten

/-- Value of one hex digit; node accepts both cases. -/
def hexDigitVal (c : Char) : Option Nat :=
  if 48 ≤ c.toNat ∧ c.toNat ≤ 57 then some (c.toNat - 48)
  else if 97 ≤ c.toNat ∧ c.toNat ≤ 102 then some (c.toNat - 87)
  else if 65 ≤ c.toNat ∧ c.toNat ≤ 70 then some (c.toNat - 55)
  else none

/-- Decoding of `Buffer.from(str, 'hex')`: stops at the first character pair
that is not two hex digits and drops an odd trailing digit, exactly as node
truncates instead of raising. -/
def hexDecodeTrunc : List Char → List Nat
  | c1 :: c2 :: rest =>
    match hexDigitVal c1, hexDigitVal c2 with
    | some hi, some lo => (16 * hi + lo) :: hexDecodeTrunc rest
    | _, _ => []
  | _ => []

/-! ## String.prototype.split on a single separator character -/
/-- JS `s.split(sep)` for a one-character separator: always returns at least
one (possibly empty) group. -/
def splitCh (sep : Char) : List Char → List (List Char)
  | [] => [[]]
  | c :: rest =>
    if c = sep then [] :: splitCh sep rest
    else
      match splitCh sep rest with
      | [] => [[c]]
      | g :: gs => (c :: g) :: gs

/-! ## CBC mode with PKCS#7 padding over an abstract 16-byte block cipher -/
/-- A well-formed cipher block: 16 bytes, each below 256. -/
def BlockOk (b : List Nat) : Prop := b.length = 16 ∧ ∀ x ∈ b, x < 256

instance (b : List Nat) : Decidable (BlockOk b) := by
  unfold BlockOk; infer_instance

/-- Bytewise xor of two buffers. -/
def xorBytes (a b : List Nat) : List Nat := List.zipWith Nat.xor a b

/-- PKCS#7 padding to a multiple of 16 bytes (what cipher.final applies). -/
def padPKCS7 (m : List Nat) : List Nat :=
  let p := 16 - m.length % 16
  m ++ List.replicate p p

/-- PKCS#7 unpadding (what decipher.final checks): the last byte gives the pad
length, which must be between 1 and 16, not exceed the buffer, and every pad
byte must equal it; otherwise decryption fails (bad decrypt). -/
def unpadPKCS7 (l : List Nat) : Except Unit (List Nat) :=
  match l.getLast? with
  | none => .error ()
  | some p =>
    if 1 ≤ p ∧ p ≤ 16 ∧ p ≤ l.length ∧ (l.drop (l.length - p)).all (fun x => x = p) then
      .ok (l.take (l.length - p))
    else .error ()

/-- CBC encryption of a block list: each plaintext block is xored with the
previous ciphertext block (initially the IV) before the block cipher. -/
def cbcEncryptBlocks (E : List Nat → List Nat → List Nat) (key : List Nat) :
    List Nat → List (List Nat) → List (List Nat)
  | _, [] => []
  | prev, b :: bs =>
    let c := E key (xorBytes b prev)
    c :: cbcEncryptBlocks E key c bs

/-- CBC decryption of a block list. -/
def cbcDecryptBlocks (D : List Nat → List Nat → List Nat) (key : List Nat) :
    List Nat → List (List Nat) → List (List Nat)
  | _, [] => []
  | prev, c :: cs => xorBytes (D key c) prev :: cbcDecryptBlocks D key c cs

/-- Fuel-driven worker for chunking; the fuel is an upper bound on the input
length, so the recursion is structural and computable by the kernel. -/
def chunk16Go : Nat → List Nat → List (List Nat)
  | _, [] => []
  | 0, _ :: _ => []
  | Nat.succ f, x :: tl => ((x :: tl).take 16) :: chunk16Go f ((x :: tl).drop 16)

/-- Split a buffer into 16-byte chunks. -/
def chunk16 (l : List Nat) : List (List Nat) := chunk16Go l.length l

/-- The external crypto primitives consumed from node:crypto: scrypt key
stretching, the AES-256 block cipher both ways, and the EVP_BytesToKey
derivation used by the deprecated `createDecipher`. -/
structure CryptoPrims where
  scryptKey : String → List Nat
  encBlock : List Nat → List Nat → List Nat
  decBlock : List Nat → List Nat → List Nat
  evpKeyIV : String → List Nat × List Nat

/-- Contract of the abstract block cipher: on well-formed blocks, encryption
produces a well-formed block and decryption inverts it. -/
def CipherCorrect (P : CryptoPrims) : Prop :=
  ∀ key b, BlockOk b → BlockOk (P.encBlock key b) ∧ P.decBlock key (P.encBlock key b) = b

/-- Whole-buffer CBC encryption with padding: pad, chunk, chain, rejoin
(cipher.update followed by cipher.final). -/
def cbcEncrypt (P : CryptoPrims) (key iv m : List Nat) : List Nat :=
  (cbcEncryptBlocks P.encBlock key iv (chunk16 (padPKCS7 m))).flatten

/-- Whole-buffer CBC decryption: decipher.update plus decipher.final, which
raises when the input is not a positive multiple of the block size or when the
padding check fails. -/
def cbcDecrypt (P : CryptoPrims) (key iv ct : List Nat) : Except Unit (List Nat) :=
  if ct.length % 16 = 0 ∧ 0 < ct.length then
    unpadPKCS7 ((cbcDecryptBlocks P.decBlock key iv (chunk16 ct)).flatten)
  else .error ()

/-! ## encryptPassword / decryptPassword (src/api/lib/smtp.ts lines 15-51) -/
/-- Translation of `encryptPassword`: derive the key by scrypt from the master
key with the static salt, CBC-encrypt the UTF-8 password under a fresh random
IV (here a parameter), and produce the envelope hex(iv) + ":" + hex(ct). -/
def encryptPassword (P : CryptoPrims) (masterKey : String) (iv password : List Nat) :
    List Char :=
  let key := P.scryptKey masterKey
  let encrypted := cbcEncrypt P key iv password
  hexEncode iv ++ ':' :: hexEncode encrypted

/-- Outcome of `decryptPassword`: a plaintext from the IV envelope path, a
plaintext from the legacy no-IV fallback path, or a thrown exception. -/
inductive DecryptOutcome where
  | ok (plain : List Nat)
  | legacyOk (plain : List Nat)
  | threw
deriving Repr, DecidableEq

/-- Translation of `decryptPassword`: split on ':'; with exactly two parts,
read the IV from the first (createDecipheriv throws unless it is 16 bytes) and
CBC-decrypt the second; with any other number of parts, fall back to the
deprecated `createDecipher` path, which derives key and IV from the master key
by EVP_BytesToKey and decrypts the whole input as truncated hex. -/
def decryptPassword (P : CryptoPrims) (masterKey : String) (s : List Char) :
    DecryptOutcome :=
  let key := P.scryptKey masterKey
  match splitCh ':' s with
  | [p0, p1] =>
    let iv := hexDecodeTrunc p0
    if iv.length = 16 then
      match cbcDecrypt P key iv (hexDecodeTrunc p1) with
      | .ok plain => .ok plain
      | .error _ => .threw
    else .threw
  | _ =>
    let ki := P.evpKeyIV masterKey
    match cbcDecrypt P ki.1 ki.2 (hexDecodeTrunc s) with
    | .ok plain => .legacyOk plain
    | .error _ => .threw

/-- A concrete instance of the crypto primitives used to evaluate the model on
closed inputs: the block cipher is the bytewise complement, which satisfies
`CipherCorrect`. -/
def modelPrims : CryptoPrims where
  scryptKey := fun _ => List.replicate 32 0
  encBlock := fun _ b => b.map (fun x => 255 - x)
  decBlock := fun _ b => b.map (fun x => 255 - x)
  evpKeyIV := fun _ => (List.replicate 32 1, List.replicate 16 0)

/-! ## Data model: persisted SMTP account records (spec section 6, part_000)

Field set of the persisted record: id, ownerId (userId), name, host, port,
secure, username, passwordEncrypted, fromName, signature, isDefault, isActive,
createdAt (updatedAt is maintained by the ORM and not observed by any claim).
Ids and creation timestamps are modelled as Nat drawn from monotone counters of
the database state. -/
structure Account where
  id : Nat
  userId : Nat
  name : String
  host : String
  port : Nat
  secure : Bool
  username : String
  passwordEncrypted : List Char
  fromName : String
  signature : String
  isDefault : Bool
  isActive : Bool
  createdAt : Nat
deriving Repr, DecidableEq

/-- Database state: the smtpConfig table plus the id allocator and the clock
that stamps createdAt (`now()` is strictly monotone between requests). -/
structure Db where
  accounts : List Account
  nextId : Nat
  clock : Nat
deriving Repr, DecidableEq

/-- The initial empty database. -/
def dbInit : Db := { accounts := [], nextId := 0, clock := 0 }

/-- Outcome of a route handler, abstracting the HTTP statuses used in
part_000: 200/201 success, 404 not found, 400 validation failure, and the 400
"Cannot delete the only SMTP configuration" rejection (the ConflictError of
the spec). -/
inductive ApiResult where
  | ok
  | notFound
  | validationError
  | conflict
deriving Repr, DecidableEq

/-- JS `a || b` on an optional string: undefined and the empty string are both
falsy. -/
def jsOrElse (o : Option String) (d : String) : String :=
  match o with
  | some s => if s = "" then d else s
  | none => d

/-- Body of POST /api/smtp/configs. Optional JSON fields are `Option`; `port`
is the number after the HTTP layer's parseInt. The plaintext password is a
byte list. -/
structure CreateBody where
  name : String
  host : String
  port : Nat
  secure : Option Bool
  username : String
  password : List Nat
  fromName : Option String
  signature : Option String
  isDefault : Option Bool
deriving Repr, DecidableEq

/-- Body of PUT /api/smtp/configs/:id — partial update, every field optional. -/
structure UpdateBody where
  name : Option String
  host : Option String
  port : Option Nat
  secure : Option Bool
  username : Option String
  password : Option (List Nat)
  fromName : Option String
  signature : Option String
  isDefault : Option Bool
deriving Repr, DecidableEq

/-- Row effect of the `updateMany` where-clause `{ userId, isDefault: true }`
with data `{ isDefault: false }`. -/
def clearRow (u : Nat) (a : Account) : Account :=
  if a.userId == u && a.isDefault then { a with isDefault := false } else a

/-- The updateMany of the create route and of the set-default transaction. -/
def clearUserDefaults (u : Nat) (l : List Account) : List Account :=
  l.map (clearRow u)

/-- Row effect of the update route's updateMany, which leaves the target row
alone (`id: { not: id }`). -/
def clearOtherRow (u tid : Nat) (a : Account) : Account :=
  if a.userId == u && a.isDefault && a.id != tid then { a with isDefault := false } else a

/-- Row effect of `update({ where: { id }, data: { isDefault: true } })`. -/
def setDefaultRow (tid : Nat) (a : Account) : Account :=
  if a.id == tid then { a with isDefault := true } else a

/-- Row effect of the soft delete `data: { isActive: false }`. -/
def deactivateRow (tid : Nat) (a : Account) : Account :=
  if a.id == tid then { a with isActive := false } else a

/-- Row effect of `update({ where: { id }, data: updateData })`. -/
def updateRow (tid : Nat) (f : Account → Account) (a : Account) : Account :=
  if a.id == tid then f a else a

/-- Translation of POST /api/smtp/configs (part_000 lines 180-250): falsy-check
the required fields, range-check the port, encrypt the password, clear the
owner's other defaults when isDefault is truthy, then insert the new record
with isActive = true. -/
def createConfig (P : CryptoPrims) (mk : String) (db : Db) (u : Nat)
    (userName : String) (iv : List Nat) (b : CreateBody) : ApiResult × Db :=
  if b.name = "" ∨ b.host = "" ∨ b.port = 0 ∨ b.username = "" ∨ b.password = [] then
    (.validationError, db)
  else if b.port < 1 ∨ 65535 < b.port then
    (.validationError, db)
  else
    let encrypted := encryptPassword P mk iv b.password
    let accounts1 :=
      if b.isDefault.getD false then clearUserDefaults u db.accounts else db.accounts
    let newAcc : Account :=
      { id := db.nextId
        userId := u
        name := b.name
        host := b.host
        port := b.port
        secure := b.secure.getD false
        username := b.username
        passwordEncrypted := encrypted
        fromName := jsOrElse b.fromName userName
        signature := jsOrElse b.signature ""
        isDefault := b.isDefault.getD false
        isActive := true
        createdAt := db.clock }
    (.ok, { accounts := accounts1 ++ [newAcc], nextId := db.nextId + 1, clock := db.clock + 1 })

/-- `findFirst({ where: { id, userId } })` — ownership-scoped record lookup
with no isActive filter, shared by the get-one/update/delete routes. -/
def findConfig (l : List Account) (id u : Nat) : Option Account :=
  l.find? (fun a => a.id == id && a.userId == u)

/-- The updateData object assembled by the sequence of
`if (field) updateData.field = ...` statements of the update route, applied to
the row: partial update with JS truthiness (absent, empty-string and zero
values leave the column unchanged); a supplied password is re-encrypted;
fromName and signature only test for undefined; id, userId, isActive and
createdAt are never touched. -/
def applyUpdate (b : UpdateBody) (encPw : List Nat → List Char) (a : Account) : Account :=
  { a with
    name := match b.name with
      | some s => if s ≠ "" then s else a.name
      | none => a.name
    host := match b.host with
      | some s => if s ≠ "" then s else a.host
      | none => a.host
    port := match b.port with
      | some p => if p ≠ 0 then p else a.port
      | none => a.port
    secure := match b.secure with
      | some v => v
      | none => a.secure
    username := match b.username with
      | some s => if s ≠ "" then s else a.username
      | none => a.username
    passwordEncrypted := match b.password with
      | some pw => if pw ≠ [] then encPw pw else a.passwordEncrypted
      | none => a.passwordEncrypted
    fromName := b.fromName.getD a.fromName
    signature := b.signature.getD a.signature
    isDefault := match b.isDefault with
      | some v => v
      | none => a.isDefault }

/-- Translation of PUT /api/smtp/configs/:id (part_000 lines 256-336): 404 when
the id is not the caller's, 400 on a bad supplied port, clear the other
defaults of the owner when isDefault is truthy, then apply the partial update
to the row with that id. -/
def updateConfig (P : CryptoPrims) (mk : String) (db : Db) (u id : Nat)
    (iv : List Nat) (b : UpdateBody) : ApiResult × Db :=
  match findConfig db.accounts id u with
  | none => (.notFound, db)
  | some _ =>
    if (match b.port with
        | some p => decide (p ≠ 0 ∧ (p < 1 ∨ 65535 < p))
        | none => false) then
      (.validationError, db)
    else
      let accounts1 :=
        if b.isDefault.getD false then db.accounts.map (clearOtherRow u id)
        else db.accounts
      let accounts2 := accounts1.map (updateRow id (applyUpdate b (encryptPassword P mk iv)))
      (.ok, { db with accounts := accounts2 })

/-- Translation of POST /api/smtp/configs/:id/set-default (part_000 lines
342-383): 404 unless the id is an active account of the caller; then, inside
one `$transaction`, clear `isDefault` on every account of the owner and set it
on the target — modelled as a single state transition. -/
def setDefaultConfig (db : Db) (u id : Nat) : ApiResult × Db :=
  match db.accounts.find? (fun a => a.id == id && a.userId == u && a.isActive) with
  | none => (.notFound, db)
  | some _ =>
    let step1 := clearUserDefaults u db.accounts
    let step2 := step1.map (setDefaultRow id)
    (.ok, { db with accounts := step2 })

/-- `count({ where: { userId, isActive: true } })` of the delete route. -/
def countActive (l : List Account) (u : Nat) : Nat :=
  (l.filter (fun a => a.userId == u && a.isActive)).length

/-- First element by minimal createdAt, keeping the earlier list element on a
tie — `findFirst({ ..., orderBy: { createdAt: 'asc' } })`. -/
def minByCreatedAt : List Account → Option Account
  | [] => none
  | a :: rest =>
    match minByCreatedAt rest with
    | none => some a
    | some b => if b.createdAt < a.createdAt then some b else some a

/-- First separate statement of the delete route when the target is the
default: look up the owner's oldest remaining active account and set its
isDefault — issued on its own, not inside a transaction. -/
def promoteNext (l : List Account) (u id : Nat) : List Account :=
  match minByCreatedAt (l.filter (fun a => a.userId == u && a.isActive && a.id != id)) with
  | some nxt => l.map (setDefaultRow nxt.id)
  | none => l

/-- Second separate statement of the delete route: the soft delete
`update({ where: { id }, data: { isActive: false } })`. -/
def deactivateById (l : List Account) (id : Nat) : List Account :=
  l.map (deactivateRow id)

/-- Translation of DELETE /api/smtp/configs/:id (part_000 lines 441-504):
404 when the id is not the caller's; reject when the owner has exactly one
active account; otherwise promote the oldest remaining active account if the
target is the default, then soft-delete the target — the two writes are two
separate awaits, not a transaction. -/
def deleteConfig (db : Db) (u id : Nat) : ApiResult × Db :=
  match findConfig db.accounts id u with
  | none => (.notFound, db)
  | some existing =>
    if countActive db.accounts u = 1 then
      (.conflict, db)
    else
      let accounts1 := if existing.isDefault then promoteNext db.accounts u id else db.accounts
      let accounts2 := deactivateById accounts1 id
      (.ok, { db with accounts := accounts2 })

/-! ## GET routes (list and single read) -/
/-- Projection of the select clause shared by the read paths: every column of
the record except the encrypted password (and the ORM-side updatedAt and email
count, which no claim observes). -/
structure ConfigView where
  id : Nat
  name : String
  host : String
  port : Nat
  secure : Bool
  username : String
  fromName : String
  signature : String
  isDefault : Bool
  isActive : Bool
  createdAt : Nat
deriving Repr, DecidableEq

/-- The select projection applied to a record. -/
def toView (a : Account) : ConfigView :=
  { id := a.id
    name := a.name
    host := a.host
    port := a.port
    secure := a.secure
    username := a.username
    fromName := a.fromName
    signature := a.signature
    isDefault := a.isDefault
    isActive := a.isActive
    createdAt := a.createdAt }

/-- Ordering of `orderBy: [{ isDefault: 'desc' }, { createdAt: 'desc' }]`:
defaults first, then newest first. -/
def listBefore (a b : Account) : Prop :=
  (a.isDefault = true ∧ b.isDefault = false) ∨
    (a.isDefault = b.isDefault ∧ b.createdAt ≤ a.createdAt)

instance : DecidableRel listBefore := by
  unfold listBefore
  infer_instance

instance : IsTotal Account listBefore := by
  constructor
  intro a b
  unfold listBefore
  cases ha : a.isDefault <;> cases hb : b.isDefault <;> simp [ha, hb] <;> omega

instance : IsTrans Account listBefore := by
  constructor
  intro a b c hab hbc
  unfold listBefore at hab hbc ⊢
  cases ha : a.isDefault <;> cases hb : b.isDefault <;> cases hc : c.isDefault <;>
    simp_all <;> omega

/-- Translation of GET /api/smtp/configs (part_000 lines 89-130): the owner's
active accounts, sorted default-first then newest-first, with the password
column excluded by the select clause. -/
def getConfigs (db : Db) (u : Nat) : List ConfigView :=
  ((db.accounts.filter (fun a => a.userId == u && a.isActive)).insertionSort
      listBefore).map toView

/-- Translation of GET /api/smtp/configs/:id (part_000 lines 136-174): lookup
by id and owner with no isActive filter, then the password-free projection. -/
def getConfigById (db : Db) (u id : Nat) : Option ConfigView :=
  (findConfig db.accounts id u).map toView

/-! ## Config resolver (getSmtpConfig, src/api/lib/smtp.ts lines 56-98) -/
/-- Environment fallback relay configuration (DEFAULT_SMTP_* variables, with
their process-level defaults already applied). -/
structure EnvSmtp where
  host : String
  port : Nat
  secure : Bool
  user : String
  pass : String
deriving Repr, DecidableEq

/-- Value returned by getSmtpConfig: either the shaped
`{host, port, secure, auth: {user, pass}}` object with a decrypted password,
or — on the no-default fallback branch — the raw stored record itself, whose
password field is still the encrypted envelope and which carries no `auth`
property, or the environment fallback object. -/
inductive ResolvedSmtp where
  | shaped (host : String) (port : Nat) (secure : Bool) (authUser : String)
      (authPass : List Nat)
  | raw (a : Account)
  | envFallback (host : String) (port : Nat) (secure : Bool) (user pass : String)
deriving Repr, DecidableEq

/-- JS property access `config.password` on a stored record: the persisted
column is `passwordEncrypted` (written at part_000 lines 220 and 303 and read
back at line 408), so the record has no `password` property and the access
yields undefined. -/
def recordPasswordField (_a : Account) : Option (List Char) := none

/-- Translation of `getSmtpConfig`: find the owner's default active record; if
none, return the first active record as-is; if none at all, return the
environment fallback. On the default branch the code decrypts
`config.password`, which is undefined, so `decryptPassword` throws on
`.split` — modelled as `.error ()`. -/
def getSmtpConfig (P : CryptoPrims) (mk : String) (db : Db) (u : Nat)
    (env : EnvSmtp) : Except Unit ResolvedSmtp :=
  match db.accounts.find? (fun a => a.userId == u && a.isActive && a.isDefault) with
  | some config =>
    match recordPasswordField config with
    | some encStr =>
      match decryptPassword P mk encStr with
      | .ok plain => .ok (.shaped config.host config.port config.secure config.username plain)
      | .legacyOk plain =>
        .ok (.shaped config.host config.port config.secure config.username plain)
      | .threw => .error ()
    | none => .error ()
  | none =>
    match db.accounts.find? (fun a => a.userId == u && a.isActive) with
    | some firstConfig => .ok (.raw firstConfig)
    | none => .ok (.envFallback env.host env.port env.secure env.user env.pass)

/-! ## Dispatch engine (sendEmail / testSmtpConnection, smtp.ts lines 117-203) -/
/-- Owner record consulted for the from header. -/
structure User where
  id : Nat
  name : String
  email : String
deriving Repr, DecidableEq

/-- Staged attachment reference passed through to the transport. -/
structure AttachmentRef where
  filename : String
  path : String
  contentType : Option String
deriving Repr, DecidableEq

/-- Body accepted by sendEmail; the source field `to` is named `toAddresses`
here because `to` is reserved in Lean. -/
structure EmailData where
  toAddresses : List String
  cc : Option (List String)
  bcc : Option (List String)
  subject : String
  html : Option String
  text : Option String
  attachments : Option (List AttachmentRef)
deriving Repr, DecidableEq

/-- The mailOptions object handed to transporter.sendMail. -/
structure MailOptions where
  fromField : String
  toAddresses : String
  cc : Option String
  bcc : Option String
  subject : String
  html : Option String
  text : Option String
  attachments : Option (List AttachmentRef)
deriving Repr, DecidableEq

/-- Translation of the mailOptions construction (smtp.ts lines 142-151): the
sender header is "<user.name>" <user.email> built from the OWNER record, and
each recipient list is joined with a comma and a space. -/
def buildMailOptions (user : User) (d : EmailData) : MailOptions :=
  { fromField := "\"" ++ user.name ++ "\" <" ++ user.email ++ ">"
    toAddresses := String.intercalate ", " d.toAddresses
    cc := d.cc.map (String.intercalate ", ")
    bcc := d.bcc.map (String.intercalate ", ")
    subject := d.subject
    html := d.html
    text := d.text
    attachments := d.attachments }

/-- Behaviour of transporter.sendMail for one call: success with a message id
and server response, or a thrown transport error (authentication rejected,
connection refused, timeout, recipient rejected, ...) carrying its message. -/
inductive SendOutcome where
  | sent (messageId response : String)
  | exn (message : String)
deriving Repr, DecidableEq

/-- The DispatchResult value returned to every caller of sendEmail. -/
structure DispatchResult where
  success : Bool
  messageId : Option String
  response : Option String
  error : Option String
deriving Repr, DecidableEq

/-- Body of the try block of sendEmail: build the transporter from the
resolved config (any throw propagates to the catch), look up the owner (throw
"User not found" when absent), build mailOptions and hand them to the
transport. -/
def sendEmailTry (P : CryptoPrims) (mk : String) (db : Db) (u : Nat)
    (env : EnvSmtp) (user? : Option User)
    (relay : ResolvedSmtp → MailOptions → SendOutcome) (d : EmailData) :
    Except String (String × String) :=
  match getSmtpConfig P mk db u env with
  | .error _ => .error "TypeError: Cannot read properties of undefined"
  | .ok cfg =>
    match user? with
    | none => .error "User not found"
    | some user =>
      match relay cfg (buildMailOptions user d) with
      | .sent mid resp => .ok (mid, resp)
      | .exn m => .error m

/-- Translation of `sendEmail` (smtp.ts lines 117-167): the whole body runs in
a try/catch that converts every throw into `{success: false, error}`. -/
def sendEmail (P : CryptoPrims) (mk : String) (db : Db) (u : Nat) (env : EnvSmtp)
    (user? : Option User) (relay : ResolvedSmtp → MailOptions → SendOutcome)
    (d : EmailData) : DispatchResult :=
  match sendEmailTry P mk db u env user? relay d with
  | .ok (mid, resp) =>
    { success := true, messageId := some mid, response := some resp, error := none }
  | .error msg =>
    { success := false, messageId := none, response := none, error := some msg }

/-- Inline configuration accepted by testSmtpConnection. -/
structure TestSmtpInput where
  host : String
  port : Nat
  secure : Bool
  username : String
  password : String
deriving Repr, DecidableEq

/-- Behaviour of transporter.verify: handshake succeeded or threw. -/
inductive VerifyOutcome where
  | verified
  | exn (message : String)
deriving Repr, DecidableEq

/-- Result shape of testSmtpConnection. -/
structure TestResult where
  success : Bool
  message : Option String
  error : Option String
deriving Repr, DecidableEq

/-- Translation of `testSmtpConnection` (smtp.ts lines 172-203): build a
transporter for the given config, verify, and convert any throw into
`{success: false, error}` in the catch. -/
def testSmtpConnection (cfg : TestSmtpInput) (verify : TestSmtpInput → VerifyOutcome) :
    TestResult :=
  match verify cfg with
  | .verified =>
    { success := true, message := some "SMTP connection successful", error := none }
  | .exn m => { success := false, message := none, error := some m }

/-! ## Operation sequences over the account store -/
/-- One mutating request against the SMTP configuration routes, with the
per-request random IV for password encryption carried as data. -/
inductive Op where
  | createOp (u : Nat) (userName : String) (iv : List Nat) (b : CreateBody)
  | updateOp (u : Nat) (id : Nat) (iv : List Nat) (b : UpdateBody)
  | setDefaultOp (u : Nat) (id : Nat)
  | deleteOp (u : Nat) (id : Nat)

/-- Apply one operation, keeping only the resulting state. -/
def applyOp (P : CryptoPrims) (mk : String) (db : Db) : Op → Db
  | .createOp u userName iv b => (createConfig P mk db u userName iv b).2
  | .updateOp u id iv b => (updateConfig P mk db u id iv b).2
  | .setDefaultOp u id => (setDefaultConfig db u id).2
  | .deleteOp u id => (deleteConfig db u id).2

/-- Run a sequence of operations from a state. -/
def runOps (P : CryptoPrims) (mk : String) (db : Db) : List Op → Db
  | [] => db
  | op :: ops => runOps P mk (applyOp P mk db op) ops

/-- Row predicate for an owner's active default account. -/
def adPred (u : Nat) (a : Account) : Bool :=
  a.userId == u && a.isActive && a.isDefault

/-- The owner's active default accounts — the subject of invariant A. -/
def activeDefaults (l : List Account) (u : Nat) : List Account :=
  l.filter (adPred u)

/-- The owner has a soft-deleted record whose stale isDefault flag is still
set (the delete route never clears the flag of the row it deactivates). -/
def hasInactiveDefault (l : List Account) (u : Nat) : Prop :=
  ∃ a ∈ l, a.userId = u ∧ a.isActive = false ∧ a.isDefault = true

/-- x is (one of) the owner's oldest active accounts. -/
def oldestActive (l : List Account) (u : Nat) (x : Account) : Prop :=
  x.userId = u ∧ x.isActive = true ∧
    ∀ b ∈ l, b.userId = u → b.isActive = true → x.createdAt ≤ b.createdAt

/-- All records carry pairwise distinct ids and creation stamps. -/
def DistinctKeys (l : List Account) : Prop :=
  l.Pairwise (fun a b => a.id ≠ b.id ∧ a.createdAt ≠ b.createdAt)

/-- Inductive invariant of the account store: key freshness and distinctness,
at most one active default per owner, and — whenever an owner has a stale
inactive default — every active default of that owner is their oldest active
account. -/
def Inv (db : Db) : Prop :=
  (∀ a ∈ db.accounts, a.id < db.nextId ∧ a.createdAt < db.clock) ∧
  DistinctKeys db.accounts ∧
  (∀ u, (activeDefaults db.accounts u).length ≤ 1) ∧
  (∀ u, hasInactiveDefault db.accounts u →
    ∀ x ∈ activeDefaults db.accounts u, oldestActive db.accounts u x)

/-! ## List route helpers (GET /api/smtp/configs) -/
/-- The listing order on projected views: defaults first, then newest first. -/
def viewBefore (x y : ConfigView) : Prop :=
  (x.isDefault = true ∧ y.isDefault = false) ∨
    (x.isDefault = y.isDefault ∧ y.createdAt ≤ x.createdAt)

/-- Rewriting of a stored secret, leaving every other column alone. -/
def erasePw (f : Account → List Char) (a : Account) : Account :=
  { a with passwordEncrypted := f a }

/-! ## Concrete fixtures for witnesses and counterexamples -/
/-- A 16-byte all-zero IV. -/
def ivZero : List Nat := List.replicate 16 0

/-- Create body with no isDefault supplied (the JSON field absent). -/
def bodyPlain : CreateBody :=
  { name := "Main"
    host := "smtp.example.com"
    port := 587
    secure := some false
    username := "alice@example.com"
    password := [104, 105]
    fromName := none
    signature := none
    isDefault := none }

/-- State after an owner's very first create request without isDefault. -/
def c1Db : Db := (createConfig modelPrims "master" dbInit 1 "Alice" ivZero bodyPlain).2

/-- Environment fallback fixture. -/
def envFix : EnvSmtp :=
  { host := "smtp.gmail.com", port := 587, secure := false, user := "", pass := "" }

/-- A stored non-default active account whose password column holds an
encrypted envelope. -/
def rawAccount : Account :=
  { id := 0
    userId := 1
    name := "Main"
    host := "smtp.example.com"
    port := 587
    secure := false
    username := "alice@example.com"
    passwordEncrypted := hexEncode (List.replicate 16 0) ++ ':' :: hexEncode (List.replicate 16 9)
    fromName := "Alice"
    signature := ""
    isDefault := false
    isActive := true
    createdAt := 0 }

/-- One-account store: a single active, non-default account. -/
def rawDb : Db := { accounts := [rawAccount], nextId := 1, clock := 1 }

/-- The same account flagged as the default. -/
def defaultAccount : Account := { rawAccount with isDefault := true }

/-- One-account store whose single account is the active default. -/
def defaultDb : Db := { accounts := [defaultAccount], nextId := 1, clock := 1 }

/-- Default account A (oldest) of the two-account owner. -/
def acctA : Account :=
  { id := 0
    userId := 1
    name := "A"
    host := "h1"
    port := 587
    secure := false
    username := "a"
    passwordEncrypted := []
    fromName := "A"
    signature := ""
    isDefault := true
    isActive := true
    createdAt := 0 }

/-- Non-default newer account B of the same owner. -/
def acctB : Account :=
  { acctA with id := 1, name := "B", isDefault := false, createdAt := 1 }

/-- Two active accounts, A default and oldest. -/
def twoDb : Db := { accounts := [acctA, acctB], nextId := 2, clock := 2 }

/-- A soft-deleted account that still carries all its columns. -/
def inactiveAccount : Account := { rawAccount with isActive := false }

/-- Store holding only the soft-deleted account. -/
def inactiveDb : Db := { accounts := [inactiveAccount], nextId := 1, clock := 1 }

/-! ## C2 -/
/-- Owner record fixture. -/
def userAlice : User := { id := 1, name := "Alice", email := "alice@example.com" }

/-- Email body fixture. -/
def mailData : EmailData :=
  { toAddresses := ["x@example.com", "y@example.com"]
    cc := some ["c@example.com"]
    bcc := none
    subject := "hi"
    html := none
    text := some "body"
    attachments := none }

/-- Inline test-connection configuration fixture. -/
def tcfgFix : TestSmtpInput :=
  { host := "smtp.example.com", port := 587, secure := false,
    username := "u", password := "p" }

/-- Decidable equality for Except values, used to evaluate resolver results on
concrete stores. -/
instance {e a : Type} [DecidableEq e] [DecidableEq a] : DecidableEq (Except e a) :=
  fun x y =>
    match x, y with
    | Except.ok v, Except.ok w =>
      if h : v = w then Decidable.isTrue (by rw [h])
      else Decidable.isFalse (fun hc => h (Except.ok.inj hc))
    | Except.error v, Except.error w =>
      if h : v = w then Decidable.isTrue (by rw [h])
      else Decidable.isFalse (fun hc => h (Except.error.inj hc))
    | Except.ok _, Except.error _ => Decidable.isFalse (fun hc => Except.noConfusion hc)
    | Except.error _, Except.ok _ => Decidable.isFalse (fun hc => Except.noConfusion hc)

/-! ## C7 -/
/-- A legacy-format envelope: the ciphertext produced by the no-IV
createDecipher scheme for the plaintext bytes of "hi" under the EVP-derived
key and IV of the model primitives, hex-encoded, with no colon anywhere. -/
def legacyEnvelope : List Char :=
  hexEncode (cbcEncrypt modelPrims (List.replicate 32 1) (List.replicate 16 0) [104, 105])

/-- A two-part envelope whose IV part decodes to a single byte. -/
def badIvEnvelope : List Char := [Char.ofNat 97, Char.ofNat 97, ':', Char.ofNat 98, Char.ofNat 98]

/-! ## C8 -/
/-- The stored relay account of the C8 scenario: the account's sending
identity is Bob over relay@example.com. -/
def relayAccount : Account :=
  { rawAccount with username := "relay@example.com", fromName := "Bob" }

/-- Store resolving to the Bob relay account. -/
def relayDb : Db := { accounts := [relayAccount], nextId := 1, clock := 1 }

/-! ## Theorems -/

theorem modelPrims_correct : CipherCorrect modelPrims := by
  intro key b hb
  obtain ⟨hlen, hmem⟩ := hb
  refine ⟨⟨by simp [modelPrims, hlen], ?_⟩, ?_⟩
  · intro x hx
    simp only [modelPrims, List.mem_map] at hx
    obtain ⟨y, _, rfl⟩ := hx
    omega
  · simp only [modelPrims, List.map_map]
    have : ∀ x ∈ b, ((fun x => 255 - x) ∘ fun x : Nat => 255 - x) x = id x := by
      intro x hx
      have := hmem x hx
      simp
      omega
    rw [List.map_congr_left this, List.map_id]

/-! ## Vault round-trip lemmas -/
theorem hexDigitVal_hexDigitChar (b : Nat) (hb : b < 16) :
    hexDigitVal (hexDigitChar b) = some b := by
  have : ∀ x : Fin 16, hexDigitVal (hexDigitChar x.val) = some x.val := by decide
  exact this ⟨b, hb⟩

theorem hexDigitChar_ne_colon (b : Nat) (hb : b < 16) : hexDigitChar b ≠ ':' := by
  have : ∀ x : Fin 16, hexDigitChar x.val ≠ ':' := by decide
  exact this ⟨b, hb⟩

theorem hexEncode_not_colon (bs : List Nat) : ∀ c ∈ hexEncode bs, c ≠ ':' := by
  intro c hc
  induction bs with
  | nil => simp [hexEncode] at hc
  | cons b bs ih =>
    simp only [hexEncode, List.map_cons, List.flatten_cons, List.mem_append] at hc
    rcases hc with hc | hc
    · simp only [hexEncodeByte, List.mem_cons, List.not_mem_nil, or_false] at hc
      rcases hc with rfl | rfl
      · exact hexDigitChar_ne_colon _ (Nat.mod_lt _ (by omega))
      · exact hexDigitChar_ne_colon _ (Nat.mod_lt _ (by omega))
    · exact ih hc

theorem hexDecodeTrunc_hexEncode (bs : List Nat) (hbs : ∀ x ∈ bs, x < 256) :
    hexDecodeTrunc (hexEncode bs) = bs := by
  induction bs with
  | nil => rfl
  | cons b bs ih =>
    have hb : b < 256 := hbs b (by simp)
    have h1 : b / 16 % 16 < 16 := Nat.mod_lt _ (by omega)
    have h2 : b % 16 < 16 := Nat.mod_lt _ (by omega)
    have hd : b / 16 % 16 = b / 16 := Nat.mod_eq_of_lt (by omega)
    simp only [hexEncode, List.map_cons, List.flatten_cons, hexEncodeByte,
      List.cons_append, List.nil_append]
    show hexDecodeTrunc
        (hexDigitChar (b / 16 % 16) :: hexDigitChar (b % 16) :: hexEncode bs) = b :: bs
    rw [hexDecodeTrunc]
    rw [hexDigitVal_hexDigitChar _ h1, hexDigitVal_hexDigitChar _ h2]
    simp only [ih (fun x hx => hbs x (by simp [hx]))]
    congr 1
    rw [hd]
    omega

theorem splitCh_of_not_mem (sep : Char) (l : List Char) (h : ∀ c ∈ l, c ≠ sep) :
    splitCh sep l = [l] := by
  induction l with
  | nil => rfl
  | cons c rest ih =>
    rw [splitCh]
    rw [if_neg (h c (by simp))]
    rw [ih (fun x hx => h x (by simp [hx]))]

theorem splitCh_append (sep : Char) (l1 l2 : List Char) (h : ∀ c ∈ l1, c ≠ sep) :
    splitCh sep (l1 ++ sep :: l2) = l1 :: splitCh sep l2 := by
  induction l1 with
  | nil =>
    simp only [List.nil_append]
    rw [splitCh, if_pos rfl]
  | cons c rest ih =>
    simp only [List.cons_append]
    rw [splitCh, if_neg (h c (by simp))]
    rw [ih (fun x hx => h x (by simp [hx]))]

theorem splitCh_envelope (l1 l2 : List Char) (h1 : ∀ c ∈ l1, c ≠ ':')
    (h2 : ∀ c ∈ l2, c ≠ ':') : splitCh ':' (l1 ++ ':' :: l2) = [l1, l2] := by
  rw [splitCh_append _ _ _ h1, splitCh_of_not_mem _ _ h2]

theorem chunk16Go_congr : ∀ (f g : Nat) (l : List Nat), l.length ≤ f → l.length ≤ g →
    chunk16Go f l = chunk16Go g l := by
  intro f
  induction f with
  | zero =>
    intro g l hf _
    have : l = [] := List.length_eq_zero.mp (by omega)
    subst this
    cases g <;> rfl
  | succ f ih =>
    intro g l hf hg
    cases l with
    | nil => cases g <;> rfl
    | cons x tl =>
      cases g with
      | zero => simp at hg
      | succ g =>
        show ((x :: tl).take 16) :: chunk16Go f ((x :: tl).drop 16)
          = ((x :: tl).take 16) :: chunk16Go g ((x :: tl).drop 16)
        congr 1
        apply ih
        · simp only [List.length_drop, List.length_cons] at hf ⊢
          omega
        · simp only [List.length_drop, List.length_cons] at hg ⊢
          omega

theorem chunk16_nil : chunk16 ([] : List Nat) = [] := rfl

theorem chunk16_eq (l : List Nat) :
    chunk16 l = if l = [] then [] else l.take 16 :: chunk16 (l.drop 16) := by
  cases l with
  | nil => rfl
  | cons x tl =>
    rw [if_neg (by simp)]
    show ((x :: tl).take 16) :: chunk16Go tl.length ((x :: tl).drop 16)
      = (x :: tl).take 16 :: chunk16 ((x :: tl).drop 16)
    congr 1
    apply chunk16Go_congr
    · simp only [List.length_drop, List.length_cons]
      omega
    · exact Nat.le_refl _

theorem flatten_chunk16 (l : List Nat) : (chunk16 l).flatten = l := by
  have key : ∀ (f : Nat) (l : List Nat), l.length ≤ f → (chunk16Go f l).flatten = l := by
    intro f
    induction f with
    | zero =>
      intro l hf
      have : l = [] := List.length_eq_zero.mp (by omega)
      subst this
      rfl
    | succ f ih =>
      intro l hf
      cases l with
      | nil => rfl
      | cons x tl =>
        show (((x :: tl).take 16) :: chunk16Go f ((x :: tl).drop 16)).flatten = x :: tl
        rw [List.flatten_cons]
        rw [ih _ (by simp only [List.length_drop, List.length_cons] at hf ⊢; omega)]
        exact List.take_append_drop _ _
  exact key _ _ (Nat.le_refl _)

theorem chunk16_flatten (L : List (List Nat)) (h : ∀ b ∈ L, b.length = 16) :
    chunk16 L.flatten = L := by
  have key : ∀ (L : List (List Nat)) (f : Nat), L.flatten.length ≤ f →
      (∀ b ∈ L, b.length = 16) → chunk16Go f L.flatten = L := by
    intro L
    induction L with
    | nil => intro f _ _; cases f <;> rfl
    | cons b L ihL =>
      intro f hf hlen
      have hb : b.length = 16 := hlen b (by simp)
      have hfl : (b :: L).flatten.length = 16 + L.flatten.length := by
        simp [List.flatten_cons, hb]
      cases f with
      | zero => omega
      | succ f =>
        have hbne : b ++ L.flatten ≠ [] := by
          intro hc
          have h2 := congrArg List.length hc
          simp [hb] at h2
        obtain ⟨x, b1, rfl⟩ : ∃ x b1, b = x :: b1 := by
          cases b with
          | nil => simp at hb
          | cons x b1 => exact ⟨x, b1, rfl⟩
        show (((x :: b1) ++ L.flatten).take 16) :: chunk16Go f (((x :: b1) ++ L.flatten).drop 16)
          = (x :: b1) :: L
        have ht : ((x :: b1) ++ L.flatten).take 16 = x :: b1 := by
          rw [show (16 : Nat) = (x :: b1).length from hb.symm]
          exact List.take_left _ _
        have hd : ((x :: b1) ++ L.flatten).drop 16 = L.flatten := by
          rw [show (16 : Nat) = (x :: b1).length from hb.symm]
          exact List.drop_left _ _
        rw [ht, hd]
        congr 1
        apply ihL
        · simp only [List.flatten_cons, List.length_append] at hf
          omega
        · exact fun c hc => hlen c (by simp [hc])
  exact key L _ (Nat.le_refl _) h

theorem chunk16_blockOk (l : List Nat) (hlen : l.length % 16 = 0)
    (hmem : ∀ x ∈ l, x < 256) : ∀ b ∈ chunk16 l, BlockOk b := by
  have key : ∀ (f : Nat) (l : List Nat), l.length ≤ f → l.length % 16 = 0 →
      (∀ x ∈ l, x < 256) → ∀ b ∈ chunk16Go f l, BlockOk b := by
    intro f
    induction f with
    | zero =>
      intro l hf _ _ b hb
      have : l = [] := List.length_eq_zero.mp (by omega)
      subst this
      simp [chunk16Go] at hb
    | succ f ih =>
      intro l hf hmod hm b hb
      cases l with
      | nil => simp [chunk16Go] at hb
      | cons x tl =>
        have hpos : 0 < (x :: tl).length := by simp
        have h16 : 16 ≤ (x :: tl).length := by
          rcases Nat.lt_or_ge (x :: tl).length 16 with hlt | hge
          · interval_cases h : (x :: tl).length <;> omega
          · exact hge
        rcases List.mem_cons.mp hb with rfl | hb2
        · constructor
          · simp only [List.length_take]
            omega
          · intro y hy
            exact hm y (List.mem_of_mem_take hy)
        · refine ih _ ?_ ?_ ?_ b hb2
          · simp only [List.length_drop, List.length_cons] at hf ⊢
            omega
          · simp only [List.length_drop]
            omega
          · intro y hy
            exact hm y (List.mem_of_mem_drop hy)
  exact key _ _ (Nat.le_refl _) hlen hmem

theorem xorBytes_mem (a : List Nat) : ∀ (b : List Nat), (∀ x ∈ a, x < 256) →
    (∀ x ∈ b, x < 256) → ∀ x ∈ xorBytes a b, x < 256 := by
  induction a with
  | nil => intro b _ _ x hx; simp [xorBytes] at hx
  | cons y ys ih =>
    intro b ha hb x hx
    cases b with
    | nil => simp [xorBytes] at hx
    | cons z zs =>
      simp only [xorBytes, List.zipWith_cons_cons, List.mem_cons] at hx
      rcases hx with rfl | hx
      · have h1 : y < 2 ^ 8 := by simpa using ha y (by simp)
        have h2 : z < 2 ^ 8 := by simpa using hb z (by simp)
        calc Nat.xor y z < 2 ^ 8 := Nat.xor_lt_two_pow h1 h2
        _ = 256 := by norm_num
      · exact ih zs (fun u hu => ha u (by simp [hu])) (fun u hu => hb u (by simp [hu])) x hx

theorem xorBytes_blockOk (a b : List Nat) (ha : BlockOk a) (hb : BlockOk b) :
    BlockOk (xorBytes a b) := by
  obtain ⟨hal, ham⟩ := ha
  obtain ⟨hbl, hbm⟩ := hb
  exact ⟨by simp [xorBytes, hal, hbl], xorBytes_mem a b ham hbm⟩

theorem xorBytes_cancel (a b : List Nat) (h : a.length = b.length) :
    xorBytes (xorBytes a b) b = a := by
  induction a generalizing b with
  | nil => simp [xorBytes]
  | cons x xs ih =>
    cases b with
    | nil => simp at h
    | cons y ys =>
      simp only [xorBytes, List.zipWith_cons_cons]
      rw [show List.zipWith Nat.xor (List.zipWith Nat.xor xs ys) ys = xs from
        ih ys (by simpa using h)]
      congr 1
      exact Nat.xor_cancel_right y x

theorem cbcEncryptBlocks_blockOk (P : CryptoPrims) (hP : CipherCorrect P)
    (key : List Nat) (L : List (List Nat)) (prev : List Nat)
    (hL : ∀ b ∈ L, BlockOk b) (hprev : BlockOk prev) :
    ∀ c ∈ cbcEncryptBlocks P.encBlock key prev L, BlockOk c := by
  induction L generalizing prev with
  | nil => simp [cbcEncryptBlocks]
  | cons b bs ih =>
    intro c hc
    have hb : BlockOk b := hL b (by simp)
    have hxor : BlockOk (xorBytes b prev) := xorBytes_blockOk _ _ hb hprev
    have henc : BlockOk (P.encBlock key (xorBytes b prev)) := (hP key _ hxor).1
    rw [cbcEncryptBlocks] at hc
    rcases List.mem_cons.mp hc with rfl | hc
    · exact henc
    · exact ih _ (fun x hx => hL x (by simp [hx])) henc c hc

theorem cbcDecryptBlocks_cbcEncryptBlocks (P : CryptoPrims) (hP : CipherCorrect P)
    (key : List Nat) (L : List (List Nat)) (prev : List Nat)
    (hL : ∀ b ∈ L, BlockOk b) (hprev : BlockOk prev) :
    cbcDecryptBlocks P.decBlock key prev (cbcEncryptBlocks P.encBlock key prev L) = L := by
  induction L generalizing prev with
  | nil => rfl
  | cons b bs ih =>
    have hb : BlockOk b := hL b (by simp)
    have hxor : BlockOk (xorBytes b prev) := xorBytes_blockOk _ _ hb hprev
    have henc : BlockOk (P.encBlock key (xorBytes b prev)) := (hP key _ hxor).1
    rw [cbcEncryptBlocks, cbcDecryptBlocks]
    rw [(hP key _ hxor).2]
    rw [xorBytes_cancel _ _ (by rw [hb.1, hprev.1])]
    rw [ih _ (fun x hx => hL x (by simp [hx])) henc]

theorem padPKCS7_length (m : List Nat) : (padPKCS7 m).length % 16 = 0 := by
  simp only [padPKCS7, List.length_append, List.length_replicate]
  omega

theorem padPKCS7_pos (m : List Nat) : 0 < (padPKCS7 m).length := by
  simp only [padPKCS7, List.length_append, List.length_replicate]
  omega

theorem padPKCS7_mem (m : List Nat) (hm : ∀ x ∈ m, x < 256) :
    ∀ x ∈ padPKCS7 m, x < 256 := by
  intro x hx
  simp only [padPKCS7, List.mem_append, List.mem_replicate] at hx
  rcases hx with hx | hx
  · exact hm x hx
  · omega

theorem getLast?_append_replicate (m : List Nat) (p : Nat) (hp : 1 ≤ p) :
    (m ++ List.replicate p p).getLast? = some p := by
  obtain ⟨q, rfl⟩ : ∃ q, p = q + 1 := ⟨p - 1, by omega⟩
  rw [List.replicate_succ', ← List.append_assoc]
  exact List.getLast?_concat _

theorem unpadPKCS7_padPKCS7 (m : List Nat) : unpadPKCS7 (padPKCS7 m) = .ok m := by
  have hmod : m.length % 16 < 16 := Nat.mod_lt _ (by omega)
  have hlen : (padPKCS7 m).length = m.length + (16 - m.length % 16) := by
    simp [padPKCS7]
  have hsub : (padPKCS7 m).length - (16 - m.length % 16) = m.length := by omega
  have hlast : (padPKCS7 m).getLast? = some (16 - m.length % 16) :=
    getLast?_append_replicate m _ (by omega)
  have hdrop : (padPKCS7 m).drop ((padPKCS7 m).length - (16 - m.length % 16)) =
      List.replicate (16 - m.length % 16) (16 - m.length % 16) := by
    rw [hsub]
    exact List.drop_left m _
  have htake : (padPKCS7 m).take ((padPKCS7 m).length - (16 - m.length % 16)) = m := by
    rw [hsub]
    exact List.take_left m _
  simp only [unpadPKCS7, hlast]
  split
  · rw [htake]
  · rename_i hfalse
    exfalso
    apply hfalse
    refine ⟨by omega, by omega, by omega, ?_⟩
    rw [hdrop]
    simp [List.all_eq_true, List.mem_replicate]

theorem cbcEncryptBlocks_length (E : List Nat → List Nat → List Nat) (key : List Nat)
    (L : List (List Nat)) : ∀ prev, (cbcEncryptBlocks E key prev L).length = L.length := by
  induction L with
  | nil => intro prev; rfl
  | cons b bs ih =>
    intro prev
    rw [cbcEncryptBlocks]
    simp [ih]

theorem flatten_length_uniform (L : List (List Nat)) (h : ∀ b ∈ L, b.length = 16) :
    L.flatten.length = 16 * L.length := by
  induction L with
  | nil => simp
  | cons c cs ih =>
    simp only [List.flatten_cons, List.length_append, List.length_cons]
    rw [h c (by simp), ih (fun x hx => h x (by simp [hx]))]
    ring

theorem cbcDecrypt_cbcEncrypt (P : CryptoPrims) (hP : CipherCorrect P)
    (key iv m : List Nat) (hiv : BlockOk iv) (hm : ∀ x ∈ m, x < 256) :
    cbcDecrypt P key iv (cbcEncrypt P key iv m) = .ok m := by
  have hchunks : ∀ b ∈ chunk16 (padPKCS7 m), BlockOk b :=
    chunk16_blockOk _ (padPKCS7_length m) (padPKCS7_mem m hm)
  have hencOk : ∀ c ∈ cbcEncryptBlocks P.encBlock key iv (chunk16 (padPKCS7 m)), BlockOk c :=
    cbcEncryptBlocks_blockOk P hP key _ iv hchunks hiv
  have hlens : ∀ c ∈ cbcEncryptBlocks P.encBlock key iv (chunk16 (padPKCS7 m)),
      c.length = 16 := fun c hc => (hencOk c hc).1
  have hctlen : (cbcEncrypt P key iv m).length =
      16 * (chunk16 (padPKCS7 m)).length := by
    simp only [cbcEncrypt]
    rw [flatten_length_uniform _ hlens, cbcEncryptBlocks_length]
  have hblockspos : 0 < (chunk16 (padPKCS7 m)).length := by
    rcases Nat.eq_zero_or_pos (chunk16 (padPKCS7 m)).length with hz | hp
    · exfalso
      have hnil : chunk16 (padPKCS7 m) = [] := List.length_eq_zero.mp hz
      have h1 : padPKCS7 m = [] := by
        have h2 := congrArg List.flatten hnil
        rwa [flatten_chunk16] at h2
      have h3 := padPKCS7_pos m
      rw [h1] at h3
      simp at h3
    · exact hp
  have hguard : (cbcEncrypt P key iv m).length % 16 = 0 ∧
      0 < (cbcEncrypt P key iv m).length := by
    rw [hctlen]
    omega
  rw [cbcDecrypt, if_pos hguard]
  have hchunkct : chunk16 (cbcEncrypt P key iv m) =
      cbcEncryptBlocks P.encBlock key iv (chunk16 (padPKCS7 m)) := by
    simp only [cbcEncrypt]
    exact chunk16_flatten _ hlens
  rw [hchunkct, cbcDecryptBlocks_cbcEncryptBlocks P hP key _ iv hchunks hiv,
    flatten_chunk16]
  exact unpadPKCS7_padPKCS7 m

theorem cbcEncrypt_mem (P : CryptoPrims) (hP : CipherCorrect P) (key iv m : List Nat)
    (hiv : BlockOk iv) (hm : ∀ x ∈ m, x < 256) :
    ∀ x ∈ cbcEncrypt P key iv m, x < 256 := by
  intro x hx
  rw [cbcEncrypt, List.mem_flatten] at hx
  obtain ⟨c, hc, hxc⟩ := hx
  have : BlockOk c := cbcEncryptBlocks_blockOk P hP key _ iv
    (chunk16_blockOk _ (padPKCS7_length m) (padPKCS7_mem m hm)) hiv c hc
  exact this.2 x hxc

/-! ## Row-level field lemmas -/
@[simp] theorem clearRow_userId (u : Nat) (a : Account) : (clearRow u a).userId = a.userId := by
  unfold clearRow; split <;> rfl

@[simp] theorem clearRow_id (u : Nat) (a : Account) : (clearRow u a).id = a.id := by
  unfold clearRow; split <;> rfl

@[simp] theorem clearRow_createdAt (u : Nat) (a : Account) :
    (clearRow u a).createdAt = a.createdAt := by
  unfold clearRow; split <;> rfl

@[simp] theorem clearRow_isActive (u : Nat) (a : Account) :
    (clearRow u a).isActive = a.isActive := by
  unfold clearRow; split <;> rfl

@[simp] theorem clearRow_isDefault (u : Nat) (a : Account) :
    (clearRow u a).isDefault = (!(a.userId == u) && a.isDefault) := by
  unfold clearRow
  cases hu : (a.userId == u) <;> cases hd : a.isDefault <;> simp [hu, hd]

@[simp] theorem clearOtherRow_userId (u tid : Nat) (a : Account) :
    (clearOtherRow u tid a).userId = a.userId := by
  unfold clearOtherRow; split <;> rfl

@[simp] theorem clearOtherRow_id (u tid : Nat) (a : Account) :
    (clearOtherRow u tid a).id = a.id := by
  unfold clearOtherRow; split <;> rfl

@[simp] theorem clearOtherRow_createdAt (u tid : Nat) (a : Account) :
    (clearOtherRow u tid a).createdAt = a.createdAt := by
  unfold clearOtherRow; split <;> rfl

@[simp] theorem clearOtherRow_isActive (u tid : Nat) (a : Account) :
    (clearOtherRow u tid a).isActive = a.isActive := by
  unfold clearOtherRow; split <;> rfl

@[simp] theorem clearOtherRow_isDefault (u tid : Nat) (a : Account) :
    (clearOtherRow u tid a).isDefault
      = (a.isDefault && !(a.userId == u && a.id != tid)) := by
  unfold clearOtherRow
  cases hu : (a.userId == u) <;> cases hd : a.isDefault <;> cases hi : (a.id != tid) <;>
    simp [hu, hd, hi]

@[simp] theorem setDefaultRow_userId (tid : Nat) (a : Account) :
    (setDefaultRow tid a).userId = a.userId := by
  unfold setDefaultRow; split <;> rfl

@[simp] theorem setDefaultRow_id (tid : Nat) (a : Account) :
    (setDefaultRow tid a).id = a.id := by
  unfold setDefaultRow; split <;> rfl

@[simp] theorem setDefaultRow_createdAt (tid : Nat) (a : Account) :
    (setDefaultRow tid a).createdAt = a.createdAt := by
  unfold setDefaultRow; split <;> rfl

@[simp] theorem setDefaultRow_isActive (tid : Nat) (a : Account) :
    (setDefaultRow tid a).isActive = a.isActive := by
  unfold setDefaultRow; split <;> rfl

@[simp] theorem setDefaultRow_isDefault (tid : Nat) (a : Account) :
    (setDefaultRow tid a).isDefault = ((a.id == tid) || a.isDefault) := by
  unfold setDefaultRow
  cases hi : (a.id == tid) <;> simp [hi]

@[simp] theorem deactivateRow_userId (tid : Nat) (a : Account) :
    (deactivateRow tid a).userId = a.userId := by
  unfold deactivateRow; split <;> rfl

@[simp] theorem deactivateRow_id (tid : Nat) (a : Account) :
    (deactivateRow tid a).id = a.id := by
  unfold deactivateRow; split <;> rfl

@[simp] theorem deactivateRow_createdAt (tid : Nat) (a : Account) :
    (deactivateRow tid a).createdAt = a.createdAt := by
  unfold deactivateRow; split <;> rfl

@[simp] theorem deactivateRow_isDefault (tid : Nat) (a : Account) :
    (deactivateRow tid a).isDefault = a.isDefault := by
  unfold deactivateRow; split <;> rfl

@[simp] theorem deactivateRow_isActive (tid : Nat) (a : Account) :
    (deactivateRow tid a).isActive = (!(a.id == tid) && a.isActive) := by
  unfold deactivateRow
  cases hi : (a.id == tid) <;> simp [hi]

@[simp] theorem applyUpdate_userId (b : UpdateBody) (e : List Nat → List Char) (a : Account) :
    (applyUpdate b e a).userId = a.userId := rfl

@[simp] theorem applyUpdate_id (b : UpdateBody) (e : List Nat → List Char) (a : Account) :
    (applyUpdate b e a).id = a.id := rfl

@[simp] theorem applyUpdate_createdAt (b : UpdateBody) (e : List Nat → List Char) (a : Account) :
    (applyUpdate b e a).createdAt = a.createdAt := rfl

@[simp] theorem applyUpdate_isActive (b : UpdateBody) (e : List Nat → List Char) (a : Account) :
    (applyUpdate b e a).isActive = a.isActive := rfl

@[simp] theorem applyUpdate_isDefault (b : UpdateBody) (e : List Nat → List Char) (a : Account) :
    (applyUpdate b e a).isDefault
      = (match b.isDefault with | some v => v | none => a.isDefault) := rfl

@[simp] theorem updateRow_userId (tid : Nat) (b : UpdateBody) (e : List Nat → List Char)
    (a : Account) : (updateRow tid (applyUpdate b e) a).userId = a.userId := by
  unfold updateRow; split <;> rfl

@[simp] theorem updateRow_id (tid : Nat) (b : UpdateBody) (e : List Nat → List Char)
    (a : Account) : (updateRow tid (applyUpdate b e) a).id = a.id := by
  unfold updateRow; split <;> rfl

@[simp] theorem updateRow_createdAt (tid : Nat) (b : UpdateBody) (e : List Nat → List Char)
    (a : Account) : (updateRow tid (applyUpdate b e) a).createdAt = a.createdAt := by
  unfold updateRow; split <;> rfl

@[simp] theorem updateRow_isActive (tid : Nat) (b : UpdateBody) (e : List Nat → List Char)
    (a : Account) : (updateRow tid (applyUpdate b e) a).isActive = a.isActive := by
  unfold updateRow; split <;> rfl

theorem updateRow_isDefault (tid : Nat) (b : UpdateBody) (e : List Nat → List Char)
    (a : Account) : (updateRow tid (applyUpdate b e) a).isDefault
      = (if a.id == tid then (match b.isDefault with | some v => v | none => a.isDefault)
         else a.isDefault) := by
  unfold updateRow
  split <;> simp_all

/-! ## Generic list helpers -/
theorem filter_comm_map {α β : Type} (g : α → β) (p : β → Bool) (l : List α) :
    (l.map g).filter p = (l.filter (fun a => p (g a))).map g := by
  induction l with
  | nil => rfl
  | cons a l ih =>
    simp only [List.map_cons, List.filter_cons]
    cases h : p (g a) <;> simp [h, ih]

theorem length_filter_mono {α : Type} (l : List α) (p q : α → Bool)
    (h : ∀ a ∈ l, p a = true → q a = true) :
    (l.filter p).length ≤ (l.filter q).length := by
  induction l with
  | nil => simp
  | cons a l ih =>
    have ihl := ih (fun x hx hp => h x (by simp [hx]) hp)
    simp only [List.filter_cons]
    cases hp : p a
    · cases hq : q a <;> simp [hq] <;> omega
    · rw [h a (by simp) hp]
      simpa using ihl

theorem length_filter_le_one_of_key (l : List Account)
    (hpw : l.Pairwise (fun a b => a.id ≠ b.id)) (p : Account → Bool) (i : Nat)
    (h : ∀ a ∈ l, p a = true → a.id = i) : (l.filter p).length ≤ 1 := by
  induction l with
  | nil => simp
  | cons a l ih =>
    rw [List.pairwise_cons] at hpw
    simp only [List.filter_cons]
    cases hp : p a
    · simpa using ih hpw.2 (fun x hx hq => h x (by simp [hx]) hq)
    · have hempty : l.filter p = [] := by
        rw [List.filter_eq_nil_iff]
        intro b hb hpb
        have hbid : b.id = i := h b (by simp [hb]) hpb
        have haid : a.id = i := h a (by simp) hp
        exact hpw.1 b hb (by omega)
      simp [hempty]

theorem eq_of_length_le_one {α : Type} (l : List α) (h : l.length ≤ 1) {a b : α}
    (ha : a ∈ l) (hb : b ∈ l) : a = b := by
  cases l with
  | nil => simp at ha
  | cons x xs =>
    cases xs with
    | nil =>
      simp only [List.mem_singleton] at ha hb
      rw [ha, hb]
    | cons y ys => simp at h

theorem uniq_by_id (l : List Account) (hpw : l.Pairwise (fun a b => a.id ≠ b.id))
    {t a : Account} (ht : t ∈ l) (ha : a ∈ l) (hid : a.id = t.id) : a = t := by
  by_contra hne
  have hsym : Symmetric (fun a b : Account => a.id ≠ b.id) :=
    fun x y h hc => h hc.symm
  exact (List.Pairwise.forall hsym hpw ha ht hne) hid

theorem uniq_by_createdAt (l : List Account)
    (hpw : l.Pairwise (fun a b => a.createdAt ≠ b.createdAt))
    {t a : Account} (ht : t ∈ l) (ha : a ∈ l) (hc : a.createdAt = t.createdAt) : a = t := by
  by_contra hne
  have hsym : Symmetric (fun a b : Account => a.createdAt ≠ b.createdAt) :=
    fun x y h hcc => h hcc.symm
  exact (List.Pairwise.forall hsym hpw ha ht hne) hc

theorem minByCreatedAt_mem {l : List Account} {x : Account}
    (h : minByCreatedAt l = some x) : x ∈ l := by
  induction l generalizing x with
  | nil => simp [minByCreatedAt] at h
  | cons a rest ih =>
    rw [minByCreatedAt] at h
    cases hm : minByCreatedAt rest with
    | none =>
      rw [hm] at h
      have h2 : some a = some x := h
      simp only [Option.some.injEq] at h2
      simp [← h2]
    | some b =>
      rw [hm] at h
      have h2 : (if b.createdAt < a.createdAt then some b else some a) = some x := h
      split at h2 <;> simp only [Option.some.injEq] at h2
      · subst h2
        exact List.mem_cons_of_mem _ (ih hm)
      · simp [← h2]

theorem minByCreatedAt_le {l : List Account} {x : Account}
    (h : minByCreatedAt l = some x) : ∀ b ∈ l, x.createdAt ≤ b.createdAt := by
  induction l generalizing x with
  | nil => simp [minByCreatedAt] at h
  | cons a rest ih =>
    rw [minByCreatedAt] at h
    cases hm : minByCreatedAt rest with
    | none =>
      rw [hm] at h
      have h2 : some a = some x := h
      simp only [Option.some.injEq] at h2
      subst h2
      intro b hb
      rcases List.mem_cons.mp hb with rfl | hb
      · exact Nat.le_refl _
      · exfalso
        cases hrest : rest with
        | nil => rw [hrest] at hb; simp at hb
        | cons c cs =>
          rw [hrest, minByCreatedAt] at hm
          cases hcs : minByCreatedAt cs with
          | none =>
            rw [hcs] at hm
            exact Option.some_ne_none c hm
          | some d =>
            rw [hcs] at hm
            have h3 : (if d.createdAt < c.createdAt then some d else some c) = none := hm
            split at h3 <;> simp at h3
    | some c =>
      rw [hm] at h
      have h2 : (if c.createdAt < a.createdAt then some c else some a) = some x := h
      intro b hb
      split at h2 <;> simp only [Option.some.injEq] at h2 <;> subst h2
      · rcases List.mem_cons.mp hb with rfl | hb
        · omega
        · exact ih hm b hb
      · rcases List.mem_cons.mp hb with rfl | hb
        · exact Nat.le_refl _
        · have h4 := ih hm b hb
          rename_i hnlt
          omega

theorem minByCreatedAt_eq_none {l : List Account} :
    minByCreatedAt l = none ↔ l = [] := by
  constructor
  · intro h
    cases l with
    | nil => rfl
    | cons a rest =>
      exfalso
      rw [minByCreatedAt] at h
      cases hm : minByCreatedAt rest with
      | none =>
        rw [hm] at h
        exact Option.some_ne_none a h
      | some b =>
        rw [hm] at h
        have h2 : (if b.createdAt < a.createdAt then some b else some a) = none := h
        split at h2 <;> simp at h2
  · intro h
    rw [h]
    rfl

/-! ## Transfer lemmas for mapped tables -/
theorem activeDefaults_map (g : Account → Account) (hU : ∀ a, (g a).userId = a.userId)
    (l : List Account) (u : Nat) :
    activeDefaults (l.map g) u
      = (l.filter (fun a => a.userId == u && (g a).isActive && (g a).isDefault)).map g := by
  unfold activeDefaults
  rw [filter_comm_map]
  congr 1
  apply List.filter_congr
  intro a _
  unfold adPred
  rw [hU a]

theorem hasInactiveDefault_map (g : Account → Account)
    (hU : ∀ a, (g a).userId = a.userId) (l : List Account) (u : Nat) :
    hasInactiveDefault (l.map g) u ↔
      ∃ a ∈ l, a.userId = u ∧ (g a).isActive = false ∧ (g a).isDefault = true := by
  unfold hasInactiveDefault
  constructor
  · rintro ⟨b, hb, hbu, hba, hbd⟩
    rw [List.mem_map] at hb
    obtain ⟨a, ha, rfl⟩ := hb
    exact ⟨a, ha, by rw [← hU a]; exact hbu, hba, hbd⟩
  · rintro ⟨a, ha, hau, haa, had⟩
    exact ⟨g a, List.mem_map_of_mem g ha, by rw [hU a]; exact hau, haa, had⟩

theorem oldestActive_map (g : Account → Account) (hU : ∀ a, (g a).userId = a.userId)
    (hC : ∀ a, (g a).createdAt = a.createdAt) (l : List Account) (u : Nat) (x : Account) :
    oldestActive (l.map g) u x ↔
      (x.userId = u ∧ x.isActive = true ∧
        ∀ a ∈ l, a.userId = u → (g a).isActive = true → x.createdAt ≤ a.createdAt) := by
  unfold oldestActive
  constructor
  · rintro ⟨h1, h2, h3⟩
    refine ⟨h1, h2, fun a ha hau haa => ?_⟩
    have h4 := h3 (g a) (List.mem_map_of_mem g ha) (by rw [hU a]; exact hau) haa
    rwa [hC a] at h4
  · rintro ⟨h1, h2, h3⟩
    refine ⟨h1, h2, fun b hb hbu hba => ?_⟩
    rw [List.mem_map] at hb
    obtain ⟨a, ha, rfl⟩ := hb
    rw [hC a]
    exact h3 a ha (by rw [← hU a]; exact hbu) hba

theorem bounds_map (g : Account → Account) (hI : ∀ a, (g a).id = a.id)
    (hC : ∀ a, (g a).createdAt = a.createdAt) (l : List Account) (nid ck : Nat)
    (h : ∀ a ∈ l, a.id < nid ∧ a.createdAt < ck) :
    ∀ a ∈ l.map g, a.id < nid ∧ a.createdAt < ck := by
  intro b hb
  rw [List.mem_map] at hb
  obtain ⟨a, ha, rfl⟩ := hb
  rw [hI a, hC a]
  exact h a ha

theorem distinctKeys_map (g : Account → Account) (hI : ∀ a, (g a).id = a.id)
    (hC : ∀ a, (g a).createdAt = a.createdAt) (l : List Account)
    (h : DistinctKeys l) : DistinctKeys (l.map g) := by
  unfold DistinctKeys at h ⊢
  exact List.Pairwise.map g
    (fun a b hab => ⟨by rw [hI a, hI b]; exact hab.1, by rw [hC a, hC b]; exact hab.2⟩) h

/-! ## Rows of owners not touched by a map -/
theorem AD_map_untouched (g : Account → Account) (hU : ∀ a, (g a).userId = a.userId)
    (l : List Account) (v : Nat) (hid : ∀ a ∈ l, a.userId = v → g a = a) :
    activeDefaults (l.map g) v = activeDefaults l v := by
  rw [activeDefaults_map g hU]
  have hfc : l.filter (fun a => a.userId == v && (g a).isActive && (g a).isDefault)
      = l.filter (adPred v) := by
    apply List.filter_congr
    intro a ha
    unfold adPred
    cases huv : (a.userId == v)
    · simp
    · rw [hid a ha (by simpa using huv)]
  rw [hfc]
  have hmapid : ∀ a ∈ l.filter (adPred v), g a = a := by
    intro a ha
    rw [List.mem_filter] at ha
    apply hid a ha.1
    have h3 := ha.2
    unfold adPred at h3
    simp only [Bool.and_eq_true, beq_iff_eq] at h3
    exact h3.1.1
  rw [List.map_congr_left hmapid, List.map_id']
  rfl

theorem hasInactive_map_untouched (g : Account → Account)
    (hU : ∀ a, (g a).userId = a.userId) (l : List Account) (v : Nat)
    (hid : ∀ a ∈ l, a.userId = v → g a = a) :
    hasInactiveDefault (l.map g) v ↔ hasInactiveDefault l v := by
  rw [hasInactiveDefault_map g hU]
  unfold hasInactiveDefault
  constructor
  · rintro ⟨a, ha, hau, haa, had⟩
    rw [hid a ha hau] at haa had
    exact ⟨a, ha, hau, haa, had⟩
  · rintro ⟨a, ha, hau, haa, had⟩
    refine ⟨a, ha, hau, ?_, ?_⟩ <;> rw [hid a ha hau] <;> assumption

theorem oldest_map_untouched (g : Account → Account)
    (hU : ∀ a, (g a).userId = a.userId) (hC : ∀ a, (g a).createdAt = a.createdAt)
    (l : List Account) (v : Nat) (hid : ∀ a ∈ l, a.userId = v → g a = a) (x : Account) :
    oldestActive (l.map g) v x ↔ oldestActive l v x := by
  rw [oldestActive_map g hU hC]
  unfold oldestActive
  constructor
  · rintro ⟨h1, h2, h3⟩
    refine ⟨h1, h2, fun b hb hbu hba => ?_⟩
    apply h3 b hb hbu
    rw [hid b hb hbu]
    exact hba
  · rintro ⟨h1, h2, h3⟩
    refine ⟨h1, h2, fun a ha hau haa => ?_⟩
    apply h3 a ha hau
    rw [hid a ha hau] at haa
    exact haa

/-! ## Invariant preservation -/
theorem adPred_iff (v : Nat) (a : Account) :
    adPred v a = true ↔ (a.userId = v ∧ a.isActive = true ∧ a.isDefault = true) := by
  unfold adPred
  simp [Bool.and_eq_true, beq_iff_eq, and_assoc]

theorem mem_AD_iff {l : List Account} {v : Nat} {x : Account} :
    x ∈ activeDefaults l v ↔
      (x ∈ l ∧ x.userId = v ∧ x.isActive = true ∧ x.isDefault = true) := by
  unfold activeDefaults
  rw [List.mem_filter, adPred_iff]

theorem clearRow_eq_of_ne {u : Nat} {a : Account} (h : a.userId ≠ u) :
    clearRow u a = a := by
  unfold clearRow
  rw [if_neg]
  simp [h]

theorem AD_clear_self (l : List Account) (u : Nat) :
    activeDefaults (clearUserDefaults u l) u = [] := by
  unfold clearUserDefaults
  rw [activeDefaults_map (clearRow u) (clearRow_userId u)]
  have hnil : l.filter
      (fun a => a.userId == u && (clearRow u a).isActive && (clearRow u a).isDefault) = [] := by
    rw [List.filter_eq_nil_iff]
    intro a _
    simp only [clearRow_isActive, clearRow_isDefault]
    cases hu : (a.userId == u) <;> simp [hu]
  rw [hnil]
  rfl

theorem length_filter_singleton {α : Type} (p : α → Bool) (a : α) :
    (List.filter p [a]).length ≤ 1 := by
  cases hp : p a <;> simp [List.filter_cons, hp]

theorem activeDefaults_append (l1 l2 : List Account) (v : Nat) :
    activeDefaults (l1 ++ l2) v = activeDefaults l1 v ++ activeDefaults l2 v := by
  unfold activeDefaults
  exact List.filter_append _ _

theorem AD_singleton_empty (n : Account) (v : Nat) (h : adPred v n = false) :
    activeDefaults [n] v = [] := by
  unfold activeDefaults
  simp [List.filter_cons, h]

theorem inv_mk (l : List Account) (nid ck : Nat)
    (h1 : ∀ a ∈ l, a.id < nid ∧ a.createdAt < ck) (h2 : DistinctKeys l)
    (h3 : ∀ u, (activeDefaults l u).length ≤ 1)
    (h4 : ∀ u, hasInactiveDefault l u → ∀ x ∈ activeDefaults l u, oldestActive l u x) :
    Inv (Db.mk l nid ck) := ⟨h1, h2, h3, h4⟩

theorem inv_createConfig (P : CryptoPrims) (mk : String) (db : Db) (u : Nat)
    (userName : String) (iv : List Nat) (b : CreateBody) (h : Inv db) :
    Inv (createConfig P mk db u userName iv b).2 := by
  obtain ⟨hb, hdk, h3, h4⟩ := h
  simp only [createConfig]
  split
  · exact ⟨hb, hdk, h3, h4⟩
  split
  · exact ⟨hb, hdk, h3, h4⟩
  set n : Account :=
    { id := db.nextId
      userId := u
      name := b.name
      host := b.host
      port := b.port
      secure := b.secure.getD false
      username := b.username
      passwordEncrypted := encryptPassword P mk iv b.password
      fromName := jsOrElse b.fromName userName
      signature := jsOrElse b.signature ""
      isDefault := b.isDefault.getD false
      isActive := true
      createdAt := db.clock } with hn
  have hnu : n.userId = u := by rw [hn]
  have hna : n.isActive = true := by rw [hn]
  have hnid : n.id = db.nextId := by rw [hn]
  have hnc : n.createdAt = db.clock := by rw [hn]
  by_cases hd : (b.isDefault.getD false) = true
  case pos =>
    rw [if_pos hd]
    refine inv_mk _ _ _ ?_ ?_ ?_ ?_
    case refine_1 =>
      have hbounds1 : ∀ a ∈ clearUserDefaults u db.accounts,
          a.id < db.nextId ∧ a.createdAt < db.clock :=
        bounds_map _ (clearRow_id u) (clearRow_createdAt u) _ _ _ hb
      intro a ha
      rcases List.mem_append.mp ha with ha | ha
      · have h5 := hbounds1 a ha
        constructor <;> omega
      · rw [List.mem_singleton] at ha
        subst ha
        rw [hnid, hnc]
        omega
    case refine_2 =>
      unfold DistinctKeys
      rw [List.pairwise_append]
      refine ⟨distinctKeys_map _ (clearRow_id u) (clearRow_createdAt u) _ hdk,
        List.pairwise_singleton _ _, ?_⟩
      intro a ha c hc
      rw [List.mem_singleton] at hc
      subst hc
      have h5 := bounds_map _ (clearRow_id u) (clearRow_createdAt u) _ _ _ hb a ha
      rw [hnid, hnc]
      constructor <;> omega
    case refine_3 =>
      intro v
      rw [activeDefaults_append]
      by_cases hv : v = u
      · subst hv
        rw [AD_clear_self, List.nil_append]
        unfold activeDefaults
        exact length_filter_singleton _ _
      · have huntouched : activeDefaults (clearUserDefaults u db.accounts) v
            = activeDefaults db.accounts v :=
          AD_map_untouched (clearRow u) (clearRow_userId u) db.accounts v
            (fun a _ hav => clearRow_eq_of_ne (by omega))
        rw [huntouched]
        have hpn : adPred v n = false := by
          rw [← Bool.not_eq_true]
          intro hc
          have h6 := ((adPred_iff v n).mp hc).1
          rw [hnu] at h6
          exact hv h6.symm
        rw [AD_singleton_empty n v hpn, List.append_nil]
        exact h3 v
    case refine_4 =>
      intro v hvin x hx
      by_cases hv : v = u
      · subst hv
        exfalso
        obtain ⟨w, hw, hwu, hwa, hwd⟩ := hvin
        rcases List.mem_append.mp hw with hw | hw
        · unfold clearUserDefaults at hw
          rw [List.mem_map] at hw
          obtain ⟨a, _, rfl⟩ := hw
          rw [clearRow_isDefault] at hwd
          rw [clearRow_userId] at hwu
          rw [show (a.userId == v) = true by simp [hwu]] at hwd
          simp at hwd
        · rw [List.mem_singleton] at hw
          subst hw
          rw [hna] at hwa
          simp at hwa
      · have hxin : x ∈ activeDefaults db.accounts v := by
          rw [mem_AD_iff] at hx ⊢
          obtain ⟨hx1, hx2, hx3, hx4⟩ := hx
          rcases List.mem_append.mp hx1 with hx1 | hx1
          · unfold clearUserDefaults at hx1
            rw [List.mem_map] at hx1
            obtain ⟨a, ha, rfl⟩ := hx1
            rw [clearRow_userId] at hx2
            rw [clearRow_eq_of_ne (by omega)] at hx3 hx4 ⊢
            exact ⟨ha, hx2, hx3, hx4⟩
          · rw [List.mem_singleton] at hx1
            subst hx1
            rw [hnu] at hx2
            exact absurd hx2.symm hv
        have hlin : hasInactiveDefault db.accounts v := by
          obtain ⟨w, hw, hwu, hwa, hwd⟩ := hvin
          rcases List.mem_append.mp hw with hw | hw
          · unfold clearUserDefaults at hw
            rw [List.mem_map] at hw
            obtain ⟨a, ha, rfl⟩ := hw
            rw [clearRow_userId] at hwu
            rw [clearRow_eq_of_ne (by omega)] at hwa hwd
            exact ⟨a, ha, hwu, hwa, hwd⟩
          · rw [List.mem_singleton] at hw
            subst hw
            rw [hna] at hwa
            simp at hwa
        obtain ⟨ho1, ho2, ho3⟩ := h4 v hlin x hxin
        refine ⟨ho1, ho2, ?_⟩
        intro c hc hcu hca
        rcases List.mem_append.mp hc with hc | hc
        · unfold clearUserDefaults at hc
          rw [List.mem_map] at hc
          obtain ⟨a, ha, rfl⟩ := hc
          rw [clearRow_userId] at hcu
          rw [clearRow_isActive] at hca
          rw [clearRow_createdAt]
          exact ho3 a ha hcu hca
        · rw [List.mem_singleton] at hc
          subst hc
          rw [hnu] at hcu
          exact absurd hcu.symm hv
  case neg =>
    rw [if_neg hd]
    have hnd : n.isDefault = false := by
      rw [hn]
      simpa using hd
    refine inv_mk _ _ _ ?_ ?_ ?_ ?_
    case refine_1 =>
      intro a ha
      rcases List.mem_append.mp ha with ha | ha
      · have h5 := hb a ha
        constructor <;> omega
      · rw [List.mem_singleton] at ha
        subst ha
        rw [hnid, hnc]
        omega
    case refine_2 =>
      unfold DistinctKeys
      rw [List.pairwise_append]
      refine ⟨hdk, List.pairwise_singleton _ _, ?_⟩
      intro a ha c hc
      rw [List.mem_singleton] at hc
      subst hc
      have h5 := hb a ha
      rw [hnid, hnc]
      constructor <;> omega
    case refine_3 =>
      intro v
      rw [activeDefaults_append]
      have hpn : adPred v n = false := by
        rw [← Bool.not_eq_true]
        intro hc
        have h6 := ((adPred_iff v n).mp hc).2.2
        rw [hnd] at h6
        simp at h6
      rw [AD_singleton_empty n v hpn, List.append_nil]
      exact h3 v
    case refine_4 =>
      intro v hvin x hx
      have hpn : adPred v n = false := by
        rw [← Bool.not_eq_true]
        intro hc
        have h6 := ((adPred_iff v n).mp hc).2.2
        rw [hnd] at h6
        simp at h6
      have hxin : x ∈ activeDefaults db.accounts v := by
        rw [activeDefaults_append, AD_singleton_empty n v hpn, List.append_nil] at hx
        exact hx
      have hlin : hasInactiveDefault db.accounts v := by
        obtain ⟨w, hw, hwu, hwa, hwd⟩ := hvin
        rcases List.mem_append.mp hw with hw | hw
        · exact ⟨w, hw, hwu, hwa, hwd⟩
        · rw [List.mem_singleton] at hw
          subst hw
          rw [hna] at hwa
          simp at hwa
      obtain ⟨ho1, ho2, ho3⟩ := h4 v hlin x hxin
      refine ⟨ho1, ho2, ?_⟩
      intro c hc hcu hca
      rcases List.mem_append.mp hc with hc | hc
      · exact ho3 c hc hcu hca
      · rw [List.mem_singleton] at hc
        subst hc
        rw [hnc]
        have hxmem : x ∈ db.accounts := (mem_AD_iff.mp hxin).1
        have h7 := hb x hxmem
        omega

theorem distinct_ids {l : List Account} (h : DistinctKeys l) :
    l.Pairwise (fun a b => a.id ≠ b.id) :=
  List.Pairwise.imp (fun hab => hab.1) h

theorem distinct_created {l : List Account} (h : DistinctKeys l) :
    l.Pairwise (fun a b => a.createdAt ≠ b.createdAt) :=
  List.Pairwise.imp (fun hab => hab.2) h

theorem inv_setDefaultConfig (db : Db) (u id : Nat) (h : Inv db) :
    Inv (setDefaultConfig db u id).2 := by
  obtain ⟨hb, hdk, h3, h4⟩ := h
  cases hfind : db.accounts.find? (fun a => a.id == id && a.userId == u && a.isActive) with
  | none =>
    simp only [setDefaultConfig, hfind]
    exact ⟨hb, hdk, h3, h4⟩
  | some tgt =>
    simp only [setDefaultConfig, hfind]
    have htgt_mem : tgt ∈ db.accounts := List.mem_of_find?_eq_some hfind
    have htgt_pred := List.find?_some hfind
    simp only [Bool.and_eq_true, beq_iff_eq] at htgt_pred
    obtain ⟨⟨htgt_id, htgt_u⟩, htgt_act⟩ := htgt_pred
    rw [show (clearUserDefaults u db.accounts).map (setDefaultRow id)
        = db.accounts.map (setDefaultRow id ∘ clearRow u) from by
      unfold clearUserDefaults
      rw [List.map_map]]
    set g : Account → Account := setDefaultRow id ∘ clearRow u with hgdef
    have hgu : ∀ a, (g a).userId = a.userId := by
      intro a
      simp [hgdef, Function.comp]
    have hgi : ∀ a, (g a).id = a.id := by
      intro a
      simp [hgdef, Function.comp]
    have hgc : ∀ a, (g a).createdAt = a.createdAt := by
      intro a
      simp [hgdef, Function.comp]
    have hga : ∀ a, (g a).isActive = a.isActive := by
      intro a
      simp [hgdef, Function.comp]
    have hgd : ∀ a, (g a).isDefault
        = ((a.id == id) || (!(a.userId == u) && a.isDefault)) := by
      intro a
      simp [hgdef, Function.comp]
    have huniq : ∀ a ∈ db.accounts, a.id = id → a = tgt := by
      intro a ha haid
      exact uniq_by_id db.accounts (distinct_ids hdk) htgt_mem ha (by omega)
    refine inv_mk _ _ _ ?_ ?_ ?_ ?_
    case refine_1 => exact bounds_map g hgi hgc _ _ _ hb
    case refine_2 => exact distinctKeys_map g hgi hgc _ hdk
    case refine_3 =>
      intro v
      rw [activeDefaults_map g hgu, List.length_map]
      by_cases hv : v = u
      · subst hv
        apply length_filter_le_one_of_key _ (distinct_ids hdk) _ id
        intro a ha hp
        simp only [Bool.and_eq_true, beq_iff_eq, hga, hgd, Bool.or_eq_true,
          Bool.not_eq_true', beq_eq_false_iff_ne] at hp
        obtain ⟨⟨hau, _⟩, hdisj⟩ := hp
        rcases hdisj with hid2 | ⟨hne, _⟩
        · simpa using hid2
        · exact absurd hau hne
      · have hfc : db.accounts.filter
            (fun a => a.userId == v && (g a).isActive && (g a).isDefault)
            = db.accounts.filter (adPred v) := by
          apply List.filter_congr
          intro a ha
          unfold adPred
          rw [hga, hgd]
          cases hav : (a.userId == v)
          · simp
          · have hau : a.userId = v := by simpa using hav
            have haid : (a.id == id) = false := by
              rw [beq_eq_false_iff_ne]
              intro hc
              have h6 := huniq a ha hc
              rw [h6] at hau
              exact hv (by omega)
            have hanu : (a.userId == u) = false := by
              rw [beq_eq_false_iff_ne]
              omega
            rw [haid, hanu]
            simp
        rw [hfc]
        exact h3 v
    case refine_4 =>
      intro v hvin x hx
      by_cases hv : v = u
      · subst hv
        exfalso
        rw [hasInactiveDefault_map g hgu] at hvin
        obtain ⟨a, ha, hau, haa, had⟩ := hvin
        rw [hga] at haa
        rw [hgd] at had
        simp only [Bool.or_eq_true, Bool.and_eq_true, Bool.not_eq_true',
          beq_eq_false_iff_ne] at had
        rcases had with hid2 | ⟨hne, _⟩
        · have h6 := huniq a ha (by simpa using hid2)
          rw [h6] at haa
          rw [htgt_act] at haa
          simp at haa
        · exact hne hau
      · have hid : ∀ a ∈ db.accounts, a.userId = v → g a = a := by
          intro a ha hau
          have h7 : clearRow u a = a := clearRow_eq_of_ne (by omega)
          have h8 : setDefaultRow id a = a := by
            have hcid : ¬((a.id == id) = true) := by
              intro hc
              have h9 := huniq a ha (by simpa using hc)
              rw [h9] at hau
              exact hv (by omega)
            unfold setDefaultRow
            rw [if_neg hcid]
          show setDefaultRow id (clearRow u a) = a
          rw [h7, h8]
        rw [hasInactive_map_untouched g hgu _ v hid] at hvin
        rw [AD_map_untouched g hgu _ v hid] at hx
        rw [oldest_map_untouched g hgu hgc _ v hid]
        exact h4 v hvin x hx

theorem inv_updateConfig (P : CryptoPrims) (mk : String) (db : Db) (u id : Nat)
    (iv : List Nat) (b : UpdateBody) (h : Inv db) :
    Inv (updateConfig P mk db u id iv b).2 := by
  obtain ⟨hb, hdk, h3, h4⟩ := h
  cases hfind : findConfig db.accounts id u with
  | none =>
    simp only [updateConfig, hfind]
    exact ⟨hb, hdk, h3, h4⟩
  | some tgt =>
    simp only [updateConfig, hfind]
    split
    · exact ⟨hb, hdk, h3, h4⟩
    have htgt_mem : tgt ∈ db.accounts := List.mem_of_find?_eq_some hfind
    have htgt_pred := List.find?_some hfind
    simp only [Bool.and_eq_true, beq_iff_eq] at htgt_pred
    obtain ⟨htgt_id, htgt_u⟩ := htgt_pred
    have huniq : ∀ a ∈ db.accounts, a.id = id → a = tgt := by
      intro a ha haid
      exact uniq_by_id db.accounts (distinct_ids hdk) htgt_mem ha (by omega)
    by_cases hd : (b.isDefault.getD false) = true
    case pos =>
      have hbd : b.isDefault = some true := by
        cases hbdv : b.isDefault with
        | none => rw [hbdv] at hd; simp at hd
        | some v => rw [hbdv] at hd; simp at hd; rw [hd]
      rw [if_pos hd]
      rw [show (db.accounts.map (clearOtherRow u id)).map
            (updateRow id (applyUpdate b (encryptPassword P mk iv)))
          = db.accounts.map
            (updateRow id (applyUpdate b (encryptPassword P mk iv)) ∘ clearOtherRow u id)
          from List.map_map _ _ _]
      set g : Account → Account :=
        updateRow id (applyUpdate b (encryptPassword P mk iv)) ∘ clearOtherRow u id with hgdef
      have hgu : ∀ a, (g a).userId = a.userId := by
        intro a; simp [hgdef, Function.comp]
      have hgi : ∀ a, (g a).id = a.id := by
        intro a; simp [hgdef, Function.comp]
      have hgc : ∀ a, (g a).createdAt = a.createdAt := by
        intro a; simp [hgdef, Function.comp]
      have hga : ∀ a, (g a).isActive = a.isActive := by
        intro a; simp [hgdef, Function.comp]
      have hgd : ∀ a, (g a).isDefault
          = (if a.id == id then true
             else (a.isDefault && !(a.userId == u && a.id != id))) := by
        intro a
        show (updateRow id _ (clearOtherRow u id a)).isDefault = _
        rw [updateRow_isDefault, clearOtherRow_id, clearOtherRow_isDefault, hbd]
      refine inv_mk _ _ _ ?_ ?_ ?_ ?_
      case refine_1 => exact bounds_map g hgi hgc _ _ _ hb
      case refine_2 => exact distinctKeys_map g hgi hgc _ hdk
      case refine_3 =>
        intro v
        rw [activeDefaults_map g hgu, List.length_map]
        by_cases hv : v = u
        · subst hv
          apply length_filter_le_one_of_key _ (distinct_ids hdk) _ id
          intro a ha hp
          simp only [Bool.and_eq_true, beq_iff_eq] at hp
          obtain ⟨⟨hau, _⟩, hpd⟩ := hp
          rw [hgd] at hpd
          by_cases hida : (a.id == id) = true
          · simpa using hida
          · rw [if_neg hida] at hpd
            simp only [Bool.and_eq_true, Bool.not_eq_true', Bool.and_eq_false_iff] at hpd
            rcases hpd.2 with hc | hc
            · rw [beq_eq_false_iff_ne] at hc
              exact absurd hau hc
            · rw [bne_eq_false_iff_eq] at hc
              exact hc
        · have hfc : db.accounts.filter
              (fun a => a.userId == v && (g a).isActive && (g a).isDefault)
              = db.accounts.filter (adPred v) := by
            apply List.filter_congr
            intro a ha
            unfold adPred
            rw [hga, hgd]
            cases hav : (a.userId == v)
            · simp
            · have hau : a.userId = v := by simpa using hav
              have haid : (a.id == id) = false := by
                rw [beq_eq_false_iff_ne]
                intro hc
                have h6 := huniq a ha hc
                rw [h6] at hau
                exact hv (by omega)
              have hanu : (a.userId == u) = false := by
                rw [beq_eq_false_iff_ne]
                omega
              rw [if_neg (by simp [haid]), hanu]
              simp
          rw [hfc]
          exact h3 v
      case refine_4 =>
        intro v hvin x hx
        by_cases hv : v = u
        · subst hv
          exfalso
          rw [hasInactiveDefault_map g hgu] at hvin
          obtain ⟨a, ha, hau, haa, had⟩ := hvin
          rw [hga] at haa
          rw [hgd] at had
          have haid : a.id = id := by
            by_cases hida : (a.id == id) = true
            · simpa using hida
            · rw [if_neg hida] at had
              simp only [Bool.and_eq_true, Bool.not_eq_true', Bool.and_eq_false_iff] at had
              rcases had.2 with hc | hc
              · rw [beq_eq_false_iff_ne] at hc
                exact absurd hau hc
              · rw [bne_eq_false_iff_eq] at hc
                exact hc
          have h6 := huniq a ha haid
          subst h6
          rw [mem_AD_iff] at hx
          obtain ⟨hx1, hx2, hx3, hx4⟩ := hx
          rw [List.mem_map] at hx1
          obtain ⟨c, hc, rfl⟩ := hx1
          rw [hga] at hx3
          rw [hgd] at hx4
          have hcid : c.id = id := by
            by_cases hidc : (c.id == id) = true
            · simpa using hidc
            · rw [if_neg hidc] at hx4
              simp only [Bool.and_eq_true, Bool.not_eq_true', Bool.and_eq_false_iff] at hx4
              rcases hx4.2 with hcc | hcc
              · rw [beq_eq_false_iff_ne] at hcc
                rw [hgu] at hx2
                exact absurd hx2 hcc
              · rw [bne_eq_false_iff_eq] at hcc
                exact hcc
          have h7 := huniq c hc hcid
          subst h7
          rw [haa] at hx3
          simp at hx3
        · have hid2 : ∀ a ∈ db.accounts, a.userId = v → g a = a := by
            intro a ha hau
            have h7 : clearOtherRow u id a = a := by
              unfold clearOtherRow
              rw [if_neg]
              intro hc
              simp only [Bool.and_eq_true, beq_iff_eq] at hc
              exact hv (by omega)
            have h8 : updateRow id (applyUpdate b (encryptPassword P mk iv)) a = a := by
              unfold updateRow
              rw [if_neg]
              intro hc
              have h9 := huniq a ha (by simpa using hc)
              rw [h9] at hau
              exact hv (by omega)
            show updateRow id _ (clearOtherRow u id a) = a
            rw [h7, h8]
          rw [hasInactive_map_untouched g hgu _ v hid2] at hvin
          rw [AD_map_untouched g hgu _ v hid2] at hx
          rw [oldest_map_untouched g hgu hgc _ v hid2]
          exact h4 v hvin x hx
    case neg =>
      rw [if_neg hd]
      set g : Account → Account :=
        updateRow id (applyUpdate b (encryptPassword P mk iv)) with hgdef
      have hgu : ∀ a, (g a).userId = a.userId := by
        intro a; simp [hgdef]
      have hgi : ∀ a, (g a).id = a.id := by
        intro a; simp [hgdef]
      have hgc : ∀ a, (g a).createdAt = a.createdAt := by
        intro a; simp [hgdef]
      have hga : ∀ a, (g a).isActive = a.isActive := by
        intro a; simp [hgdef]
      have hgdtrue : ∀ a, (g a).isDefault = true → a.isDefault = true := by
        intro a had
        rw [hgdef, updateRow_isDefault] at had
        by_cases hida : (a.id == id) = true
        · rw [if_pos hida] at had
          cases hbdv : b.isDefault with
          | none => rw [hbdv] at had; exact had
          | some v =>
            rw [hbdv] at had
            have : v = false := by
              cases v
              · rfl
              · rw [hbdv] at hd; simp at hd
            rw [this] at had
            simp at had
        · rw [if_neg hida] at had
          exact had
      refine inv_mk _ _ _ ?_ ?_ ?_ ?_
      case refine_1 => exact bounds_map g hgi hgc _ _ _ hb
      case refine_2 => exact distinctKeys_map g hgi hgc _ hdk
      case refine_3 =>
        intro v
        rw [activeDefaults_map g hgu, List.length_map]
        have hmono := length_filter_mono db.accounts
          (fun a => a.userId == v && (g a).isActive && (g a).isDefault) (adPred v) ?_
        · exact le_trans hmono (h3 v)
        · intro a _ hp
          simp only [Bool.and_eq_true] at hp
          obtain ⟨⟨h5, h6⟩, h7⟩ := hp
          unfold adPred
          rw [hga] at h6
          simp [h5, h6, hgdtrue a h7]
      case refine_4 =>
        intro v hvin x hx
        have hlin : hasInactiveDefault db.accounts v := by
          rw [hasInactiveDefault_map g hgu] at hvin
          obtain ⟨a, ha, hau, haa, had⟩ := hvin
          rw [hga] at haa
          exact ⟨a, ha, hau, haa, hgdtrue a had⟩
        rw [mem_AD_iff] at hx
        obtain ⟨hx1, hx2, hx3, hx4⟩ := hx
        rw [List.mem_map] at hx1
        obtain ⟨a0, ha0, rfl⟩ := hx1
        have ha0in : a0 ∈ activeDefaults db.accounts v := by
          rw [mem_AD_iff]
          rw [hgu] at hx2
          rw [hga] at hx3
          exact ⟨ha0, hx2, hx3, hgdtrue a0 hx4⟩
        obtain ⟨ho1, ho2, ho3⟩ := h4 v hlin a0 ha0in
        refine ⟨by rw [hgu]; exact ho1, by rw [hga]; exact ho2, ?_⟩
        intro c hc hcu hca
        rw [List.mem_map] at hc
        obtain ⟨a1, ha1, rfl⟩ := hc
        rw [hgu] at hcu
        rw [hga] at hca
        rw [hgc, hgc]
        exact ho3 a1 ha1 hcu hca

theorem deactivateRow_eq_of_ne {tid : Nat} {a : Account} (h : a.id ≠ tid) :
    deactivateRow tid a = a := by
  unfold deactivateRow
  rw [if_neg]
  simp [h]

theorem setDefaultRow_eq_of_ne {tid : Nat} {a : Account} (h : a.id ≠ tid) :
    setDefaultRow tid a = a := by
  unfold setDefaultRow
  rw [if_neg]
  simp [h]

theorem inv_deleteConfig (db : Db) (u id : Nat) (h : Inv db) :
    Inv (deleteConfig db u id).2 := by
  obtain ⟨hb, hdk, h3, h4⟩ := h
  cases hfind : findConfig db.accounts id u with
  | none =>
    simp only [deleteConfig, hfind]
    exact ⟨hb, hdk, h3, h4⟩
  | some tgt =>
    simp only [deleteConfig, hfind]
    split
    · exact ⟨hb, hdk, h3, h4⟩
    have htgt_mem : tgt ∈ db.accounts := List.mem_of_find?_eq_some hfind
    have htgt_pred := List.find?_some hfind
    simp only [Bool.and_eq_true, beq_iff_eq] at htgt_pred
    obtain ⟨htgt_id, htgt_u⟩ := htgt_pred
    have huniq : ∀ a ∈ db.accounts, a.id = id → a = tgt := by
      intro a ha haid
      exact uniq_by_id db.accounts (distinct_ids hdk) htgt_mem ha (by omega)
    by_cases hdef : tgt.isDefault = true
    case neg =>
      rw [if_neg hdef]
      unfold deactivateById
      refine inv_mk _ _ _ ?_ ?_ ?_ ?_
      case refine_1 =>
        exact bounds_map _ (deactivateRow_id id) (deactivateRow_createdAt id) _ _ _ hb
      case refine_2 =>
        exact distinctKeys_map _ (deactivateRow_id id) (deactivateRow_createdAt id) _ hdk
      case refine_3 =>
        intro v
        rw [activeDefaults_map _ (deactivateRow_userId id), List.length_map]
        refine le_trans (length_filter_mono _ _ (adPred v) ?_) (h3 v)
        intro a _ hp
        simp only [deactivateRow_isActive, deactivateRow_isDefault,
          Bool.and_eq_true, Bool.not_eq_true'] at hp
        unfold adPred
        simp only [Bool.and_eq_true]
        exact ⟨⟨hp.1.1, hp.1.2.2⟩, hp.2⟩
      case refine_4 =>
        intro v hvin x hx
        have hlin : hasInactiveDefault db.accounts v := by
          rw [hasInactiveDefault_map _ (deactivateRow_userId id)] at hvin
          obtain ⟨a, ha, hau, haa, had⟩ := hvin
          rw [deactivateRow_isDefault] at had
          rw [deactivateRow_isActive] at haa
          by_cases haid : (a.id == id) = true
          · have h6 := huniq a ha (by simpa using haid)
            rw [h6] at had
            exact absurd had hdef
          · have hq : (a.id == id) = false := by
              cases hqq : (a.id == id)
              · rfl
              · exact absurd hqq haid
            rw [hq] at haa
            simp only [Bool.not_false, Bool.true_and] at haa
            exact ⟨a, ha, hau, haa, had⟩
        rw [mem_AD_iff] at hx
        obtain ⟨hx1, hx2, hx3, hx4⟩ := hx
        rw [List.mem_map] at hx1
        obtain ⟨a0, ha0, rfl⟩ := hx1
        have hx3a := hx3
        rw [deactivateRow_isActive] at hx3a
        simp only [Bool.and_eq_true, Bool.not_eq_true'] at hx3a
        have hgid : deactivateRow id a0 = a0 :=
          deactivateRow_eq_of_ne (by simpa using hx3a.1)
        rw [hgid] at hx2 hx3 hx4 ⊢
        have hx_in : a0 ∈ activeDefaults db.accounts v :=
          mem_AD_iff.mpr ⟨ha0, hx2, hx3, hx4⟩
        rw [oldestActive_map _ (deactivateRow_userId id) (deactivateRow_createdAt id)]
        obtain ⟨ho1, ho2, ho3⟩ := h4 v hlin a0 hx_in
        refine ⟨ho1, ho2, fun a ha hau haa => ?_⟩
        rw [deactivateRow_isActive] at haa
        simp only [Bool.and_eq_true, Bool.not_eq_true'] at haa
        exact ho3 a ha hau haa.2
    case pos =>
      rw [if_pos hdef]
      cases hmin : minByCreatedAt
          (db.accounts.filter (fun a => a.userId == u && a.isActive && a.id != id)) with
      | none =>
        have hempty : db.accounts.filter
            (fun a => a.userId == u && a.isActive && a.id != id) = [] :=
          minByCreatedAt_eq_none.mp hmin
        simp only [promoteNext, hmin]
        unfold deactivateById
        refine inv_mk _ _ _ ?_ ?_ ?_ ?_
        case refine_1 =>
          exact bounds_map _ (deactivateRow_id id) (deactivateRow_createdAt id) _ _ _ hb
        case refine_2 =>
          exact distinctKeys_map _ (deactivateRow_id id) (deactivateRow_createdAt id) _ hdk
        case refine_3 =>
          intro v
          rw [activeDefaults_map _ (deactivateRow_userId id), List.length_map]
          refine le_trans (length_filter_mono _ _ (adPred v) ?_) (h3 v)
          intro a _ hp
          simp only [deactivateRow_isActive, deactivateRow_isDefault,
            Bool.and_eq_true, Bool.not_eq_true'] at hp
          unfold adPred
          simp only [Bool.and_eq_true]
          exact ⟨⟨hp.1.1, hp.1.2.2⟩, hp.2⟩
        case refine_4 =>
          intro v hvin x hx
          by_cases hv : v = u
          · subst hv
            exfalso
            rw [mem_AD_iff] at hx
            obtain ⟨hx1, hx2, hx3, hx4⟩ := hx
            rw [List.mem_map] at hx1
            obtain ⟨a0, ha0, rfl⟩ := hx1
            rw [deactivateRow_isActive] at hx3
            simp only [Bool.and_eq_true, Bool.not_eq_true'] at hx3
            rw [deactivateRow_userId] at hx2
            have ha0f : a0 ∈ db.accounts.filter
                (fun a => a.userId == v && a.isActive && a.id != id) := by
              rw [List.mem_filter]
              refine ⟨ha0, ?_⟩
              simp only [Bool.and_eq_true, beq_iff_eq, bne_iff_ne]
              exact ⟨⟨hx2, hx3.2⟩, by simpa using hx3.1⟩
            rw [hempty] at ha0f
            simp at ha0f
          · have hlin : hasInactiveDefault db.accounts v := by
              rw [hasInactiveDefault_map _ (deactivateRow_userId id)] at hvin
              obtain ⟨a, ha, hau, haa, had⟩ := hvin
              rw [deactivateRow_isDefault] at had
              rw [deactivateRow_isActive] at haa
              by_cases haid : (a.id == id) = true
              · have h6 := huniq a ha (by simpa using haid)
                rw [h6] at hau
                exact absurd hau.symm (by omega)
              · have hq : (a.id == id) = false := by
                  cases hqq : (a.id == id)
                  · rfl
                  · exact absurd hqq haid
                rw [hq] at haa
                simp only [Bool.not_false, Bool.true_and] at haa
                exact ⟨a, ha, hau, haa, had⟩
            rw [mem_AD_iff] at hx
            obtain ⟨hx1, hx2, hx3, hx4⟩ := hx
            rw [List.mem_map] at hx1
            obtain ⟨a0, ha0, rfl⟩ := hx1
            have hx3a := hx3
            rw [deactivateRow_isActive] at hx3a
            simp only [Bool.and_eq_true, Bool.not_eq_true'] at hx3a
            have hgid : deactivateRow id a0 = a0 :=
              deactivateRow_eq_of_ne (by simpa using hx3a.1)
            rw [hgid] at hx2 hx3 hx4 ⊢
            have hx_in : a0 ∈ activeDefaults db.accounts v :=
              mem_AD_iff.mpr ⟨ha0, hx2, hx3, hx4⟩
            rw [oldestActive_map _ (deactivateRow_userId id) (deactivateRow_createdAt id)]
            obtain ⟨ho1, ho2, ho3⟩ := h4 v hlin a0 hx_in
            refine ⟨ho1, ho2, fun a ha hau haa => ?_⟩
            rw [deactivateRow_isActive] at haa
            simp only [Bool.and_eq_true, Bool.not_eq_true'] at haa
            exact ho3 a ha hau haa.2
      | some nxt =>
        have hnxt_memf := minByCreatedAt_mem hmin
        rw [List.mem_filter] at hnxt_memf
        obtain ⟨hnxt_mem, hnxt_pred⟩ := hnxt_memf
        simp only [Bool.and_eq_true, beq_iff_eq, bne_iff_ne] at hnxt_pred
        obtain ⟨⟨hnxt_u, hnxt_act⟩, hnxt_nid⟩ := hnxt_pred
        have hnxt_min : ∀ b ∈ db.accounts, b.userId = u → b.isActive = true →
            b.id ≠ id → nxt.createdAt ≤ b.createdAt := by
          intro c hc h1 h2 hcid
          refine minByCreatedAt_le hmin c ?_
          rw [List.mem_filter]
          refine ⟨hc, ?_⟩
          simp only [Bool.and_eq_true, beq_iff_eq, bne_iff_ne]
          exact ⟨⟨h1, h2⟩, hcid⟩
        have huniq_nxt : ∀ a ∈ db.accounts, a.id = nxt.id → a = nxt := by
          intro a ha haid
          exact uniq_by_id db.accounts (distinct_ids hdk) hnxt_mem ha haid
        simp only [promoteNext, hmin]
        unfold deactivateById
        rw [List.map_map]
        set g : Account → Account := deactivateRow id ∘ setDefaultRow nxt.id with hgdef
        have hgu : ∀ a, (g a).userId = a.userId := by
          intro a; simp [hgdef, Function.comp]
        have hgi : ∀ a, (g a).id = a.id := by
          intro a; simp [hgdef, Function.comp]
        have hgc : ∀ a, (g a).createdAt = a.createdAt := by
          intro a; simp [hgdef, Function.comp]
        have hga : ∀ a, (g a).isActive = (!(a.id == id) && a.isActive) := by
          intro a; simp [hgdef, Function.comp]
        have hgd : ∀ a, (g a).isDefault = ((a.id == nxt.id) || a.isDefault) := by
          intro a; simp [hgdef, Function.comp]
        have hkey : ∀ a ∈ db.accounts,
            (a.userId == u && (g a).isActive && (g a).isDefault) = true → a.id = nxt.id := by
          intro a ha hp
          simp only [hga, hgd, Bool.and_eq_true, Bool.or_eq_true, Bool.not_eq_true',
            beq_iff_eq] at hp
          obtain ⟨⟨hau, hne, hact⟩, hdisj⟩ := hp
          rcases hdisj with hgood | hadef
          · exact hgood
          · by_cases htact : tgt.isActive = true
            · exfalso
              have hain : a ∈ activeDefaults db.accounts u :=
                mem_AD_iff.mpr ⟨ha, hau, hact, hadef⟩
              have htin : tgt ∈ activeDefaults db.accounts u :=
                mem_AD_iff.mpr ⟨htgt_mem, htgt_u, htact, hdef⟩
              have h6 := eq_of_length_le_one _ (h3 u) hain htin
              rw [h6] at hne
              rw [beq_eq_false_iff_ne] at hne
              exact hne htgt_id
            · have htf : tgt.isActive = false := by
                cases hq : tgt.isActive
                · rfl
                · exact absurd hq htact
              have hlin : hasInactiveDefault db.accounts u :=
                ⟨tgt, htgt_mem, htgt_u, htf, hdef⟩
              have hain : a ∈ activeDefaults db.accounts u :=
                mem_AD_iff.mpr ⟨ha, hau, hact, hadef⟩
              obtain ⟨_, _, ho3⟩ := h4 u hlin a hain
              have h7 : a.createdAt ≤ nxt.createdAt := ho3 nxt hnxt_mem hnxt_u hnxt_act
              have h8 : nxt.createdAt ≤ a.createdAt :=
                hnxt_min a ha hau hact (by rw [beq_eq_false_iff_ne] at hne; exact hne)
              have h9 : a = nxt :=
                uniq_by_createdAt db.accounts (distinct_created hdk) hnxt_mem ha (by omega)
              rw [h9]
        refine inv_mk _ _ _ ?_ ?_ ?_ ?_
        case refine_1 => exact bounds_map g hgi hgc _ _ _ hb
        case refine_2 => exact distinctKeys_map g hgi hgc _ hdk
        case refine_3 =>
          intro v
          rw [activeDefaults_map g hgu, List.length_map]
          by_cases hv : v = u
          · subst hv
            exact length_filter_le_one_of_key _ (distinct_ids hdk) _ nxt.id hkey
          · have hfc : db.accounts.filter
                (fun a => a.userId == v && (g a).isActive && (g a).isDefault)
                = db.accounts.filter (adPred v) := by
              apply List.filter_congr
              intro a ha
              unfold adPred
              rw [hga, hgd]
              cases hav : (a.userId == v)
              · simp
              · have hau : a.userId = v := by simpa using hav
                have haid : (a.id == id) = false := by
                  rw [beq_eq_false_iff_ne]
                  intro hc
                  have h6 := huniq a ha hc
                  rw [h6] at hau
                  exact hv (by omega)
                have hanid : (a.id == nxt.id) = false := by
                  rw [beq_eq_false_iff_ne]
                  intro hc
                  have h6 := huniq_nxt a ha hc
                  rw [h6] at hau
                  exact hv (by omega)
                rw [haid, hanid]
                simp
            rw [hfc]
            exact h3 v
        case refine_4 =>
          intro v hvin x hx
          by_cases hv : v = u
          · subst hv
            rw [mem_AD_iff] at hx
            obtain ⟨hx1, hx2, hx3, hx4⟩ := hx
            rw [List.mem_map] at hx1
            obtain ⟨a0, ha0, rfl⟩ := hx1
            have ha0id : a0.id = nxt.id := by
              apply hkey a0 ha0
              simp only [Bool.and_eq_true, beq_iff_eq]
              rw [hgu] at hx2
              exact ⟨⟨hx2, hx3⟩, hx4⟩
            have ha0 : a0 = nxt := huniq_nxt a0 ha0 ha0id
            subst ha0
            rw [oldestActive_map g hgu hgc]
            refine ⟨by rw [hgu]; exact hnxt_u, ?_, ?_⟩
            · rw [hga]
              simp only [Bool.and_eq_true, Bool.not_eq_true']
              exact ⟨by rw [beq_eq_false_iff_ne]; exact hnxt_nid, hnxt_act⟩
            · intro a ha hau haa
              rw [hga] at haa
              simp only [Bool.and_eq_true, Bool.not_eq_true'] at haa
              rw [hgc]
              exact hnxt_min a ha hau haa.2 (by rw [← beq_eq_false_iff_ne]; exact haa.1)
          · have hid2 : ∀ a ∈ db.accounts, a.userId = v → g a = a := by
              intro a ha hau
              have h7 : setDefaultRow nxt.id a = a := by
                apply setDefaultRow_eq_of_ne
                intro hc
                have h9 := huniq_nxt a ha hc
                rw [h9] at hau
                exact hv (by omega)
              have h8 : deactivateRow id a = a := by
                apply deactivateRow_eq_of_ne
                intro hc
                have h9 := huniq a ha hc
                rw [h9] at hau
                exact hv (by omega)
              show deactivateRow id (setDefaultRow nxt.id a) = a
              rw [h7, h8]
            rw [hasInactive_map_untouched g hgu _ v hid2] at hvin
            rw [AD_map_untouched g hgu _ v hid2] at hx
            rw [oldest_map_untouched g hgu hgc _ v hid2]
            exact h4 v hvin x hx

theorem inv_dbInit : Inv dbInit := by
  refine ⟨?_, ?_, ?_, ?_⟩
  · intro a ha
    simp [dbInit] at ha
  · simp [DistinctKeys, dbInit]
  · intro u
    simp [activeDefaults, dbInit]
  · intro u hin
    exfalso
    obtain ⟨a, ha, _⟩ := hin
    simp [dbInit] at ha

theorem inv_applyOp (P : CryptoPrims) (mk : String) (db : Db) (op : Op) (h : Inv db) :
    Inv (applyOp P mk db op) := by
  cases op with
  | createOp u userName iv b => exact inv_createConfig P mk db u userName iv b h
  | updateOp u id iv b => exact inv_updateConfig P mk db u id iv b h
  | setDefaultOp u id => exact inv_setDefaultConfig db u id h
  | deleteOp u id => exact inv_deleteConfig db u id h

theorem inv_runOps (P : CryptoPrims) (mk : String) (db : Db) (ops : List Op) (h : Inv db) :
    Inv (runOps P mk db ops) := by
  induction ops generalizing db with
  | nil => exact h
  | cons op ops ih => exact ih _ (inv_applyOp P mk db op h)

theorem getConfigs_sound (db : Db) (u : Nat) :
    ∀ v ∈ getConfigs db u,
      ∃ a, a ∈ db.accounts ∧ a.userId = u ∧ a.isActive = true ∧ v = toView a := by
  intro v hv
  unfold getConfigs at hv
  rw [List.mem_map] at hv
  obtain ⟨a, ha, rfl⟩ := hv
  rw [(List.perm_insertionSort listBefore _).mem_iff, List.mem_filter] at ha
  obtain ⟨ham, hap⟩ := ha
  simp only [Bool.and_eq_true, beq_iff_eq] at hap
  exact ⟨a, ham, hap.1, hap.2, rfl⟩

theorem getConfigs_complete (db : Db) (u : Nat) :
    ∀ a ∈ db.accounts, a.userId = u → a.isActive = true → toView a ∈ getConfigs db u := by
  intro a ha hau haa
  unfold getConfigs
  apply List.mem_map_of_mem
  rw [(List.perm_insertionSort listBefore _).mem_iff, List.mem_filter]
  refine ⟨ha, ?_⟩
  simp [hau, haa]

theorem listBefore_toView {a b : Account} (h : listBefore a b) :
    viewBefore (toView a) (toView b) := h

theorem getConfigs_sorted (db : Db) (u : Nat) :
    List.Sorted viewBefore (getConfigs db u) := by
  unfold getConfigs
  have hs : List.Sorted listBefore
      ((db.accounts.filter (fun a => a.userId == u && a.isActive)).insertionSort
        listBefore) :=
    List.sorted_insertionSort listBefore _
  exact List.Pairwise.map toView (fun a b hab => listBefore_toView hab) hs

theorem listBefore_erasePw_iff (f : Account → List Char) (a b : Account) :
    listBefore (erasePw f a) (erasePw f b) ↔ listBefore a b := Iff.rfl

theorem orderedInsert_erasePw (f : Account → List Char) (a : Account) (l : List Account) :
    List.orderedInsert listBefore (erasePw f a) (l.map (erasePw f))
      = (List.orderedInsert listBefore a l).map (erasePw f) := by
  induction l with
  | nil => rfl
  | cons b bs ih =>
    simp only [List.map_cons, List.orderedInsert]
    by_cases hab : listBefore a b
    · rw [if_pos ((listBefore_erasePw_iff f a b).mpr hab), if_pos hab]
      rfl
    · rw [if_neg (fun hc => hab ((listBefore_erasePw_iff f a b).mp hc)), if_neg hab]
      rw [List.map_cons, ih]

theorem insertionSort_erasePw (f : Account → List Char) (l : List Account) :
    List.insertionSort listBefore (l.map (erasePw f))
      = (List.insertionSort listBefore l).map (erasePw f) := by
  induction l with
  | nil => rfl
  | cons a bs ih =>
    simp only [List.map_cons, List.insertionSort]
    rw [ih, orderedInsert_erasePw]

theorem getConfigs_password_blind (db : Db) (u : Nat) (f : Account → List Char) :
    getConfigs (Db.mk (db.accounts.map (erasePw f)) db.nextId db.clock) u
      = getConfigs db u := by
  unfold getConfigs
  have hfilter : (db.accounts.map (erasePw f)).filter
        (fun a => a.userId == u && a.isActive)
      = (db.accounts.filter (fun a => a.userId == u && a.isActive)).map (erasePw f) := by
    rw [filter_comm_map]
    rfl
  rw [hfilter, insertionSort_erasePw, List.map_map]
  rfl

theorem find?_cons_pos {α : Type} (p : α → Bool) (a : α) (l : List α) (h : p a = true) :
    List.find? p (a :: l) = some a := by
  simp [List.find?_cons, h]

theorem find?_cons_neg {α : Type} (p : α → Bool) (a : α) (l : List α) (h : p a = false) :
    List.find? p (a :: l) = List.find? p l := by
  simp [List.find?_cons, h]

theorem findConfig_of_mem {l : List Account} {u : Nat} {a : Account} (ha : a ∈ l)
    (hown : a.userId = u) (huniq : ∀ b ∈ l, b.id = a.id → b = a) :
    findConfig l a.id u = some a := by
  induction l with
  | nil => simp at ha
  | cons c cs ih =>
    unfold findConfig at ih ⊢
    by_cases hc : (c.id == a.id && c.userId == u) = true
    · rw [find?_cons_pos (fun b => b.id == a.id && b.userId == u) c cs hc]
      simp only [Bool.and_eq_true, beq_iff_eq] at hc
      rw [huniq c (by simp) hc.1]
    · rw [find?_cons_neg (fun b => b.id == a.id && b.userId == u) c cs (by simpa using hc)]
      rcases List.mem_cons.mp ha with rfl | ha2
      · exfalso
        apply hc
        simp [hown]
      · exact ih ha2 (fun b hb hbid => huniq b (by simp [hb]) hbid)

/-! ## C1 -/
/-- Claim C1, counterexample: creating an owner's very first account without
supplying isDefault (POST /api/smtp/configs inserts
`isDefault: Boolean(undefined) = false` and clears nothing) leaves the owner
with one active account and zero active defaults, so "exactly one active
default" fails. -/
theorem claim1_counterexample :
    countActive c1Db.accounts 1 = 1 ∧ (activeDefaults c1Db.accounts 1).length = 0 := by
  decide

/-- Claim C1 (amended): after any sequence of create, update, set-default and
deactivate requests starting from an empty store, every owner has AT MOST one
active account with isDefault = true; the stronger "exactly one whenever an
active account exists" does not hold (see the counterexample). -/
theorem claim1_at_most_one_default (P : CryptoPrims) (mk : String) (ops : List Op)
    (u : Nat) : (activeDefaults (runOps P mk dbInit ops).accounts u).length ≤ 1 :=
  (inv_runOps P mk dbInit ops inv_dbInit).2.2.1 u

/-! ## C6 -/
/-- Claim C6: deactivating an owner's only active account is rejected (HTTP
400, the spec's ConflictError) and the store is unchanged, so the account's
isActive flag remains true. -/
theorem claim6_last_account_protected (db : Db) (u : Nat) (a : Account)
    (ha : a ∈ db.accounts) (hown : a.userId = u) (hact : a.isActive = true)
    (hcnt : countActive db.accounts u = 1) :
    deleteConfig db u a.id = (ApiResult.conflict, db) := by
  cases hfind : findConfig db.accounts a.id u with
  | none =>
    exfalso
    have h2 := List.find?_eq_none.mp hfind a ha
    apply h2
    simp [hown]
  | some t =>
    simp only [deleteConfig, hfind]
    rw [if_pos hcnt]

theorem claim6_witness :
    rawAccount ∈ rawDb.accounts ∧ rawAccount.isActive = true ∧
      countActive rawDb.accounts 1 = 1 ∧
      deleteConfig rawDb 1 rawAccount.id = (ApiResult.conflict, rawDb) :=
  ⟨by decide, by decide, by decide,
    claim6_last_account_protected rawDb 1 rawAccount (by decide) (by decide) (by decide)
      (by decide)⟩

/-! ## C9 -/
/-- Claim C9: the list route returns exactly the owner's active accounts
(soundness and completeness), ordered default-first then newest-first, and its
output is unchanged under any rewriting of the stored password column — the
encrypted secret is never included. -/
theorem claim9_list_route (db : Db) (u : Nat) :
    (∀ v ∈ getConfigs db u,
        ∃ a, a ∈ db.accounts ∧ a.userId = u ∧ a.isActive = true ∧ v = toView a)
    ∧ (∀ a ∈ db.accounts, a.userId = u → a.isActive = true → toView a ∈ getConfigs db u)
    ∧ List.Sorted viewBefore (getConfigs db u)
    ∧ (∀ f : Account → List Char,
        getConfigs (Db.mk (db.accounts.map (erasePw f)) db.nextId db.clock) u
          = getConfigs db u) :=
  ⟨getConfigs_sound db u, getConfigs_complete db u, getConfigs_sorted db u,
    fun f => getConfigs_password_blind db u f⟩

theorem claim9_witness :
    toView rawAccount ∈ getConfigs rawDb 1 ∧
      List.Sorted viewBefore (getConfigs rawDb 1) :=
  ⟨(claim9_list_route rawDb 1).2.1 rawAccount (by decide) rfl rfl,
    (claim9_list_route rawDb 1).2.2.1⟩

/-! ## C10 -/
/-- Claim C10: the single-account read path looks up by id and owner with no
isActive filter, so a soft-deactivated account remains readable by id with its
(password-free) projection intact, even though the list path excludes it. -/
theorem claim10_read_by_id (db : Db) (u : Nat) (a : Account)
    (ha : a ∈ db.accounts) (hown : a.userId = u)
    (huniq : ∀ b ∈ db.accounts, b.id = a.id → b = a) :
    getConfigById db u a.id = some (toView a)
      ∧ (a.isActive = false → toView a ∉ getConfigs db u) := by
  constructor
  · unfold getConfigById
    rw [findConfig_of_mem ha hown huniq]
    rfl
  · intro hinact hc
    obtain ⟨b, _, _, hba, hbv⟩ := getConfigs_sound db u _ hc
    have h2 : a.isActive = b.isActive := congrArg ConfigView.isActive hbv
    rw [hinact, hba] at h2
    exact Bool.false_ne_true h2

theorem claim10_witness :
    inactiveAccount.isActive = false ∧
      getConfigById inactiveDb 1 inactiveAccount.id = some (toView inactiveAccount) ∧
      toView inactiveAccount ∉ getConfigs inactiveDb 1 := by
  have h := claim10_read_by_id inactiveDb 1 inactiveAccount (by decide) (by decide)
    (by decide)
  exact ⟨by decide, h.1, h.2 (by decide)⟩

/-! ## C5 -/
theorem filter_eq_singleton_of_key (l : List Account)
    (hpw : l.Pairwise (fun a b => a.id ≠ b.id)) (p : Account → Bool) (t : Account)
    (ht : t ∈ l) (hpt : p t = true) (hkey : ∀ a ∈ l, p a = true → a.id = t.id) :
    l.filter p = [t] := by
  induction l with
  | nil => simp at ht
  | cons c cs ih =>
    rw [List.pairwise_cons] at hpw
    by_cases hpc : p c = true
    · have hct : c = t := by
        rcases List.mem_cons.mp ht with rfl | ht2
        · rfl
        · exact absurd (hkey c (by simp) hpc) (hpw.1 t ht2)
      subst hct
      have hnil : cs.filter p = [] := by
        rw [List.filter_eq_nil_iff]
        intro b hb hpb
        exact hpw.1 b hb (hkey b (by simp [hb]) hpb).symm
      simp [List.filter_cons, hpc, hnil]
    · have htcs : t ∈ cs := by
        rcases List.mem_cons.mp ht with rfl | ht2
        · exact absurd hpt hpc
        · exact ht2
      have hpcf : p c = false := by
        cases hq : p c
        · rfl
        · exact absurd hq hpc
      rw [List.filter_cons]
      simp only [hpcf, Bool.false_eq_true, if_false]
      exact ih hpw.2 htcs (fun a ha hpa => hkey a (by simp [ha]) hpa)

/-- Claim C5 (amended): deactivating the owner's current active default when
the owner has at least two active accounts promotes exactly the oldest
remaining active account — after the request, that account is the owner's only
active default, and its creation stamp is minimal among the remaining active
accounts. The promotion and the soft delete are two separate updateMany/update
statements, not a transaction, so a state with two active defaults is
observable between them (see the counterexample). -/
theorem claim5_promotes_oldest (db : Db) (u id : Nat) (tgt : Account)
    (hInv : Inv db)
    (hfind : findConfig db.accounts id u = some tgt)
    (hdef : tgt.isDefault = true)
    (hact : tgt.isActive = true)
    (hcnt : 2 ≤ countActive db.accounts u) :
    ∃ nxt, minByCreatedAt (db.accounts.filter
        (fun a => a.userId == u && a.isActive && a.id != id)) = some nxt ∧
      (∀ b ∈ db.accounts, b.userId = u → b.isActive = true → b.id ≠ id →
        nxt.createdAt ≤ b.createdAt) ∧
      (deleteConfig db u id).1 = ApiResult.ok ∧
      activeDefaults (deleteConfig db u id).2.accounts u
        = [deactivateRow id (setDefaultRow nxt.id nxt)] ∧
      (deactivateRow id (setDefaultRow nxt.id nxt)).id = nxt.id ∧
      (deactivateRow id (setDefaultRow nxt.id nxt)).createdAt = nxt.createdAt ∧
      (deactivateRow id (setDefaultRow nxt.id nxt)).isDefault = true ∧
      (deactivateRow id (setDefaultRow nxt.id nxt)).isActive = true := by
  obtain ⟨hb, hdk, h3, h4⟩ := hInv
  have htgt_mem : tgt ∈ db.accounts := List.mem_of_find?_eq_some hfind
  have htgt_pred := List.find?_some hfind
  simp only [Bool.and_eq_true, beq_iff_eq] at htgt_pred
  obtain ⟨htgt_id, htgt_u⟩ := htgt_pred
  have huniq : ∀ a ∈ db.accounts, a.id = id → a = tgt := by
    intro a ha haid
    exact uniq_by_id db.accounts (distinct_ids hdk) htgt_mem ha (by omega)
  have hne1 : countActive db.accounts u ≠ 1 := by omega
  cases hmin : minByCreatedAt (db.accounts.filter
      (fun a => a.userId == u && a.isActive && a.id != id)) with
  | none =>
    exfalso
    have hempty := minByCreatedAt_eq_none.mp hmin
    have hle : countActive db.accounts u ≤ 1 := by
      unfold countActive
      apply length_filter_le_one_of_key _ (distinct_ids hdk) _ id
      intro a ha hp
      by_contra haid
      have h6 : a ∈ db.accounts.filter
          (fun a => a.userId == u && a.isActive && a.id != id) := by
        rw [List.mem_filter]
        simp only [Bool.and_eq_true, beq_iff_eq, bne_iff_ne] at hp ⊢
        exact ⟨ha, ⟨hp, haid⟩⟩
      rw [hempty] at h6
      simp at h6
    omega
  | some nxt =>
    have hnxt_memf := minByCreatedAt_mem hmin
    rw [List.mem_filter] at hnxt_memf
    obtain ⟨hnxt_mem, hnxt_pred⟩ := hnxt_memf
    simp only [Bool.and_eq_true, beq_iff_eq, bne_iff_ne] at hnxt_pred
    obtain ⟨⟨hnxt_u, hnxt_act⟩, hnxt_nid⟩ := hnxt_pred
    have hnxt_min : ∀ b ∈ db.accounts, b.userId = u → b.isActive = true →
        b.id ≠ id → nxt.createdAt ≤ b.createdAt := by
      intro c hc h1 h2 hcid
      refine minByCreatedAt_le hmin c ?_
      rw [List.mem_filter]
      refine ⟨hc, ?_⟩
      simp only [Bool.and_eq_true, beq_iff_eq, bne_iff_ne]
      exact ⟨⟨h1, h2⟩, hcid⟩
    have huniq_nxt : ∀ a ∈ db.accounts, a.id = nxt.id → a = nxt := by
      intro a ha haid
      exact uniq_by_id db.accounts (distinct_ids hdk) hnxt_mem ha haid
    refine ⟨nxt, rfl, hnxt_min, ?_, ?_, ?_, ?_, ?_, ?_⟩
    case refine_1 =>
      simp only [deleteConfig, hfind]
      rw [if_neg hne1]
    case refine_2 =>
      simp only [deleteConfig, hfind]
      rw [if_neg hne1, if_pos hdef]
      simp only [promoteNext, hmin]
      unfold deactivateById
      rw [List.map_map]
      set g : Account → Account := deactivateRow id ∘ setDefaultRow nxt.id with hgdef
      have hgu : ∀ a, (g a).userId = a.userId := by
        intro a; simp [hgdef, Function.comp]
      have hga : ∀ a, (g a).isActive = (!(a.id == id) && a.isActive) := by
        intro a; simp [hgdef, Function.comp]
      have hgd : ∀ a, (g a).isDefault = ((a.id == nxt.id) || a.isDefault) := by
        intro a; simp [hgdef, Function.comp]
      rw [activeDefaults_map g hgu]
      have hkey : ∀ a ∈ db.accounts,
          (a.userId == u && (g a).isActive && (g a).isDefault) = true → a.id = nxt.id := by
        intro a ha hp
        simp only [hga, hgd, Bool.and_eq_true, Bool.or_eq_true, Bool.not_eq_true',
          beq_iff_eq] at hp
        obtain ⟨⟨hau, hne, hact2⟩, hdisj⟩ := hp
        rcases hdisj with hgood | hadef
        · exact hgood
        · exfalso
          have hain : a ∈ activeDefaults db.accounts u :=
            mem_AD_iff.mpr ⟨ha, hau, hact2, hadef⟩
          have htin : tgt ∈ activeDefaults db.accounts u :=
            mem_AD_iff.mpr ⟨htgt_mem, htgt_u, hact, hdef⟩
          have h6 := eq_of_length_le_one _ (h3 u) hain htin
          rw [h6] at hne
          rw [beq_eq_false_iff_ne] at hne
          exact hne htgt_id
      have hpnxt : (nxt.userId == u && (g nxt).isActive && (g nxt).isDefault) = true := by
        simp only [hga, hgd, Bool.and_eq_true, Bool.or_eq_true, Bool.not_eq_true',
          beq_iff_eq]
        exact ⟨⟨hnxt_u, by rw [beq_eq_false_iff_ne]; exact hnxt_nid, hnxt_act⟩,
          Or.inl trivial⟩
      rw [filter_eq_singleton_of_key _ (distinct_ids hdk) _ nxt hnxt_mem hpnxt hkey]
      rfl
    case refine_3 =>
      show (deactivateRow id (setDefaultRow nxt.id nxt)).id = nxt.id
      rw [deactivateRow_id, setDefaultRow_id]
    case refine_4 =>
      show (deactivateRow id (setDefaultRow nxt.id nxt)).createdAt = nxt.createdAt
      rw [deactivateRow_createdAt, setDefaultRow_createdAt]
    case refine_5 =>
      show (deactivateRow id (setDefaultRow nxt.id nxt)).isDefault = true
      rw [deactivateRow_isDefault, setDefaultRow_isDefault]
      simp
    case refine_6 =>
      show (deactivateRow id (setDefaultRow nxt.id nxt)).isActive = true
      rw [deactivateRow_isActive, setDefaultRow_isActive, setDefaultRow_id]
      simp only [Bool.and_eq_true, Bool.not_eq_true']
      exact ⟨by rw [beq_eq_false_iff_ne]; exact hnxt_nid, hnxt_act⟩

theorem inv_twoDb : Inv twoDb := by
  refine ⟨?_, ?_, ?_, ?_⟩
  · intro a ha
    rcases List.mem_cons.mp ha with rfl | ha2
    · decide
    · rcases List.mem_cons.mp ha2 with rfl | ha3
      · decide
      · simp at ha3
  · unfold DistinctKeys
    rw [show twoDb.accounts = [acctA, acctB] from rfl]
    refine List.Pairwise.cons ?_ (List.pairwise_singleton _ _)
    intro b hb
    rw [List.mem_singleton] at hb
    subst hb
    decide
  · intro u
    by_cases hu : u = 1
    · subst hu
      decide
    · unfold activeDefaults
      have hnil : twoDb.accounts.filter (adPred u) = [] := by
        rw [List.filter_eq_nil_iff]
        intro a ha hpa
        have h2 := ((adPred_iff u a).mp hpa).1
        rcases List.mem_cons.mp ha with rfl | ha2
        · exact hu (by rw [← h2]; decide)
        · rcases List.mem_cons.mp ha2 with rfl | ha3
          · exact hu (by rw [← h2]; decide)
          · simp at ha3
      rw [hnil]
      decide
  · intro u hin
    exfalso
    obtain ⟨a, ha, _, haa, _⟩ := hin
    rcases List.mem_cons.mp ha with rfl | ha2
    · simp [twoDb, acctA] at haa
    · rcases List.mem_cons.mp ha2 with rfl | ha3
      · simp [twoDb, acctB, acctA] at haa
      · simp at ha3

theorem claim5_witness :
    findConfig twoDb.accounts 0 1 = some acctA ∧ acctA.isDefault = true ∧
      2 ≤ countActive twoDb.accounts 1 ∧
      (∃ nxt, minByCreatedAt (twoDb.accounts.filter
          (fun a => a.userId == 1 && a.isActive && a.id != 0)) = some nxt ∧
        (∀ b ∈ twoDb.accounts, b.userId = 1 → b.isActive = true → b.id ≠ 0 →
          nxt.createdAt ≤ b.createdAt) ∧
        (deleteConfig twoDb 1 0).1 = ApiResult.ok ∧
        activeDefaults (deleteConfig twoDb 1 0).2.accounts 1
          = [deactivateRow 0 (setDefaultRow nxt.id nxt)] ∧
        (deactivateRow 0 (setDefaultRow nxt.id nxt)).id = nxt.id ∧
        (deactivateRow 0 (setDefaultRow nxt.id nxt)).createdAt = nxt.createdAt ∧
        (deactivateRow 0 (setDefaultRow nxt.id nxt)).isDefault = true ∧
        (deactivateRow 0 (setDefaultRow nxt.id nxt)).isActive = true) :=
  ⟨by decide, by decide, by decide,
    claim5_promotes_oldest twoDb 1 0 acctA inv_twoDb (by decide) (by decide) (by decide)
      (by decide)⟩

/-- Claim C5, counterexample to atomicity: on a two-account store with A the
active default and B active, the delete route's two separate writes expose an
intermediate state (after the promotion update, before the soft-delete
update) in which the owner has TWO active defaults, so the "one atomic
operation, no intermediate state with zero or two defaults" part of the claim
fails; the final state is consistent again. -/
theorem claim5_counterexample :
    (deleteConfig twoDb 1 0).1 = ApiResult.ok ∧
      (activeDefaults (promoteNext twoDb.accounts 1 0) 1).length = 2 ∧
      (activeDefaults (deleteConfig twoDb 1 0).2.accounts 1).length = 1 := by
  decide

/-- Claim C2: both dispatch entry points convert every failure into a
structured result. First, when the resolved transport throws (authentication
rejected, connection refused, timeout, recipient rejected — all modelled as
`SendOutcome.exn`), sendEmail returns `{success := false, error := message}`;
second, every failing sendEmail result carries an error message (the caller
always receives a DispatchResult, by totality of the function); third,
testSmtpConnection converts a throwing verify into
`{success := false, error := message}`. -/
theorem claim2_never_throws :
    (∀ (P : CryptoPrims) (mk : String) (db : Db) (u : Nat) (env : EnvSmtp)
        (user? : Option User) (relay : ResolvedSmtp → MailOptions → SendOutcome)
        (d : EmailData) (cfg : ResolvedSmtp) (user : User) (m : String),
        getSmtpConfig P mk db u env = Except.ok cfg →
        user? = some user →
        relay cfg (buildMailOptions user d) = SendOutcome.exn m →
        sendEmail P mk db u env user? relay d
          = { success := false, messageId := none, response := none, error := some m })
    ∧ (∀ (P : CryptoPrims) (mk : String) (db : Db) (u : Nat) (env : EnvSmtp)
        (user? : Option User) (relay : ResolvedSmtp → MailOptions → SendOutcome)
        (d : EmailData),
        (sendEmail P mk db u env user? relay d).success = false →
        ((sendEmail P mk db u env user? relay d).error).isSome = true)
    ∧ (∀ (cfg : TestSmtpInput) (verify : TestSmtpInput → VerifyOutcome) (m : String),
        verify cfg = VerifyOutcome.exn m →
        testSmtpConnection cfg verify
          = { success := false, message := none, error := some m }) := by
  refine ⟨?_, ?_, ?_⟩
  · intro P mk db u env user? relay d cfg user m hcfg huser hrelay
    simp only [sendEmail, sendEmailTry, hcfg, huser, hrelay]
  · intro P mk db u env user? relay d hfail
    cases h : sendEmailTry P mk db u env user? relay d with
    | ok pr =>
      obtain ⟨mid, resp⟩ := pr
      unfold sendEmail at hfail
      rw [h] at hfail
      simp at hfail
    | error m =>
      unfold sendEmail
      rw [h]
      rfl
  · intro cfg verify m hm
    unfold testSmtpConnection
    rw [hm]

theorem claim2_witness :
    sendEmail modelPrims "master" dbInit 1 envFix (some userAlice)
        (fun _ _ => SendOutcome.exn "ECONNREFUSED") mailData
      = { success := false, messageId := none, response := none,
          error := some "ECONNREFUSED" } ∧
    testSmtpConnection tcfgFix (fun _ => VerifyOutcome.exn "535 Authentication failed")
      = { success := false, message := none,
          error := some "535 Authentication failed" } :=
  ⟨claim2_never_throws.1 modelPrims "master" dbInit 1 envFix (some userAlice)
      (fun _ _ => SendOutcome.exn "ECONNREFUSED") mailData
      (ResolvedSmtp.envFallback envFix.host envFix.port envFix.secure envFix.user
        envFix.pass) userAlice "ECONNREFUSED" rfl rfl rfl,
    claim2_never_throws.2.2 tcfgFix (fun _ => VerifyOutcome.exn "535 Authentication failed")
      "535 Authentication failed" rfl⟩

/-! ## C3 -/
/-- Claim C3: for every master key, password and fresh 16-byte IV, and every
block cipher satisfying the AES contract, decrypting the envelope produced by
encryptPassword recovers the original password: the envelope is
hex(iv) + ":" + hex(ciphertext), decryption splits on the colon and inverts
the CBC encryption. -/
theorem claim3_roundtrip (P : CryptoPrims) (hP : CipherCorrect P) (mk : String)
    (iv pw : List Nat) (hiv : BlockOk iv) (hpw : ∀ x ∈ pw, x < 256) :
    decryptPassword P mk (encryptPassword P mk iv pw) = .ok pw := by
  have hsplit : splitCh ':' (encryptPassword P mk iv pw)
      = [hexEncode iv, hexEncode (cbcEncrypt P (P.scryptKey mk) iv pw)] := by
    unfold encryptPassword
    exact splitCh_envelope _ _ (hexEncode_not_colon _) (hexEncode_not_colon _)
  unfold decryptPassword
  rw [hsplit]
  show (if (hexDecodeTrunc (hexEncode iv)).length = 16 then
      match cbcDecrypt P (P.scryptKey mk) (hexDecodeTrunc (hexEncode iv))
          (hexDecodeTrunc (hexEncode (cbcEncrypt P (P.scryptKey mk) iv pw))) with
      | .ok plain => DecryptOutcome.ok plain
      | .error _ => DecryptOutcome.threw
    else DecryptOutcome.threw) = DecryptOutcome.ok pw
  rw [hexDecodeTrunc_hexEncode iv hiv.2]
  rw [if_pos hiv.1]
  rw [hexDecodeTrunc_hexEncode _ (cbcEncrypt_mem P hP (P.scryptKey mk) iv pw hiv hpw)]
  rw [cbcDecrypt_cbcEncrypt P hP (P.scryptKey mk) iv pw hiv hpw]

theorem claim3_witness :
    CipherCorrect modelPrims ∧ BlockOk ivZero ∧
      decryptPassword modelPrims "master"
        (encryptPassword modelPrims "master" ivZero [104, 105]) = .ok [104, 105] :=
  ⟨modelPrims_correct, by decide,
    claim3_roundtrip modelPrims modelPrims_correct "master" ivZero [104, 105]
      (by decide) (by decide)⟩

/-! ## C4 -/
/-- Claim C4 (amended): getSmtpConfig takes no explicit account id — the send
path never passes one. It resolves in the order default-active, then first
active, then the environment fallback, but only the environment branch yields
a usable shaped configuration: the default branch reads the nonexistent
`password` property of the record (the stored column is `passwordEncrypted`)
and throws, and the first-active branch returns the raw stored record with its
secret still encrypted and no auth object. -/
theorem claim4_resolution_order (P : CryptoPrims) (mk : String) (db : Db) (u : Nat)
    (env : EnvSmtp) :
    (∀ c, db.accounts.find? (fun a => a.userId == u && a.isActive && a.isDefault)
          = some c →
        getSmtpConfig P mk db u env = .error ())
    ∧ (db.accounts.find? (fun a => a.userId == u && a.isActive && a.isDefault) = none →
        ∀ c, db.accounts.find? (fun a => a.userId == u && a.isActive) = some c →
          getSmtpConfig P mk db u env = .ok (.raw c))
    ∧ (db.accounts.find? (fun a => a.userId == u && a.isActive && a.isDefault) = none →
        db.accounts.find? (fun a => a.userId == u && a.isActive) = none →
        getSmtpConfig P mk db u env
          = .ok (.envFallback env.host env.port env.secure env.user env.pass)) := by
  refine ⟨?_, ?_, ?_⟩
  · intro c hc
    simp only [getSmtpConfig, hc, recordPasswordField]
  · intro hnone c hc
    simp only [getSmtpConfig, hnone, hc]
  · intro hnone1 hnone2
    simp only [getSmtpConfig, hnone1, hnone2]

theorem claim4_witness :
    getSmtpConfig modelPrims "master" defaultDb 1 envFix = .error () ∧
      getSmtpConfig modelPrims "master" rawDb 1 envFix = .ok (.raw rawAccount) ∧
      getSmtpConfig modelPrims "master" dbInit 1 envFix
        = .ok (.envFallback envFix.host envFix.port envFix.secure envFix.user
            envFix.pass) :=
  ⟨(claim4_resolution_order modelPrims "master" defaultDb 1 envFix).1 defaultAccount
      (by decide),
    (claim4_resolution_order modelPrims "master" rawDb 1 envFix).2.1 (by decide)
      rawAccount (by decide),
    (claim4_resolution_order modelPrims "master" dbInit 1 envFix).2.2 rfl rfl⟩

/-- Claim C4, counterexample: with one active non-default account, the
resolver returns the raw stored record — whose password field is still the
encrypted envelope, not the decrypted secret and not a shaped auth
configuration — and with a default active account it throws instead of
returning a decrypted configuration; no branch consults an explicit account
id. -/
theorem claim4_counterexample :
    getSmtpConfig modelPrims "master" rawDb 1 envFix = .ok (.raw rawAccount) ∧
      rawAccount.passwordEncrypted
        = hexEncode (List.replicate 16 0) ++ ':' :: hexEncode (List.replicate 16 9) ∧
      (ResolvedSmtp.raw rawAccount
        ≠ ResolvedSmtp.shaped rawAccount.host rawAccount.port rawAccount.secure
            rawAccount.username [104, 105]) ∧
      getSmtpConfig modelPrims "master" defaultDb 1 envFix = .error () := by
  refine ⟨by decide, by decide, ?_, by decide⟩
  intro hc
  cases hc

/-- Claim C7 (amended): decryptPassword validates only the two-part envelope
shape — a two-part envelope whose IV part does not decode to 16 bytes throws
(createDecipheriv rejects the IV), but an envelope with any other number of
colon-separated parts is not rejected as malformed: it is routed unchanged to
the legacy no-IV createDecipher fallback, whose outcome is whatever that
decryption yields. -/
theorem claim7_malformed_envelopes (P : CryptoPrims) (mk : String) (s : List Char) :
    ((splitCh ':' s).length ≠ 2 →
      decryptPassword P mk s
        = (match cbcDecrypt P (P.evpKeyIV mk).1 (P.evpKeyIV mk).2 (hexDecodeTrunc s) with
           | .ok plain => DecryptOutcome.legacyOk plain
           | .error _ => DecryptOutcome.threw))
    ∧ (∀ p0 p1, splitCh ':' s = [p0, p1] → (hexDecodeTrunc p0).length ≠ 16 →
        decryptPassword P mk s = .threw) := by
  constructor
  · intro hlen
    unfold decryptPassword
    cases hs : splitCh ':' s with
    | nil => rfl
    | cons p rest =>
      cases rest with
      | nil => rfl
      | cons q rest2 =>
        cases rest2 with
        | nil =>
          exfalso
          rw [hs] at hlen
          simp at hlen
        | cons r rest3 => rfl
  · intro p0 p1 hsplit hiv
    unfold decryptPassword
    rw [hsplit]
    show (if (hexDecodeTrunc p0).length = 16 then _ else DecryptOutcome.threw)
      = DecryptOutcome.threw
    rw [if_neg hiv]

theorem claim7_witness :
    decryptPassword modelPrims "master" badIvEnvelope = .threw ∧
      decryptPassword modelPrims "master" legacyEnvelope
        = (match cbcDecrypt modelPrims (modelPrims.evpKeyIV "master").1
              (modelPrims.evpKeyIV "master").2 (hexDecodeTrunc legacyEnvelope) with
           | .ok plain => DecryptOutcome.legacyOk plain
           | .error _ => DecryptOutcome.threw) :=
  ⟨(claim7_malformed_envelopes modelPrims "master" badIvEnvelope).2
      [Char.ofNat 97, Char.ofNat 97] [Char.ofNat 98, Char.ofNat 98] (by decide)
      (by decide),
    (claim7_malformed_envelopes modelPrims "master" legacyEnvelope).1 (by decide)⟩

/-- Claim C7, counterexample: a well-formed legacy envelope has one
colon-separated part — a "wrong number of colon-separated parts" in the
claim's terms — yet decryptPassword returns its plaintext through the legacy
fallback instead of surfacing a CryptoError. -/
theorem claim7_counterexample :
    (splitCh ':' legacyEnvelope).length = 1 ∧
      decryptPassword modelPrims "master" legacyEnvelope
        = DecryptOutcome.legacyOk [104, 105] := by
  decide

/-- Claim C8 (amended): the outgoing message's sender header is built from the
owner's display name and the owner's own email address — the resolved
account's username and fromName are not consulted — and the to/cc/bcc
recipient lists are joined with ", ". -/
theorem claim8_mail_construction (user : User) (d : EmailData) :
    (buildMailOptions user d).fromField
        = "\"" ++ user.name ++ "\" <" ++ user.email ++ ">"
    ∧ (buildMailOptions user d).toAddresses = String.intercalate ", " d.toAddresses
    ∧ (buildMailOptions user d).cc = d.cc.map (String.intercalate ", ")
    ∧ (buildMailOptions user d).bcc = d.bcc.map (String.intercalate ", ") :=
  ⟨rfl, rfl, rfl, rfl⟩

/-- Claim C8, counterexample: sending through a store whose resolved account
carries username "relay@example.com" and fromName "Bob", with a transport that
echoes back the sender header it receives, shows the header handed to the
transport is built from the owner record ("Alice" <alice@example.com>), not
from the account's username or fromName. -/
theorem claim8_counterexample :
    relayAccount.fromName = "Bob" ∧
      relayAccount.username = "relay@example.com" ∧
      sendEmail modelPrims "master" relayDb 1 envFix (some userAlice)
          (fun _ mo => SendOutcome.exn mo.fromField) mailData
        = { success := false, messageId := none, response := none,
            error := some "\"Alice\" <alice@example.com>" } := by
  refine ⟨rfl, rfl, ?_⟩
  decide

end MailPortal
